import Mathlib

/-!
Verification of the flowy-ot operational-transformation core
(`src/rust-lib/flowy-ot/src/core/delta.rs` and `attributes.rs`).

Text is modelled as `List Char`; a Lean `Char` is one Unicode scalar value,
matching the Rust code's `num_chars` / `str::chars` character counting.
`HashMap<String, String>` is modelled as an association list with unique keys;
iteration order is the list order (Rust's hash-map order is unspecified).
-/

set_option linter.unusedVariables false

/-- `REMOVE_FLAG` from attributes.rs: the empty string marks an attribute
to be removed on merge. -/
def REMOVE_FLAG : String := ""

/-- `should_remove` from attributes.rs. -/
def should_remove (s : String) : Bool := s == REMOVE_FLAG

/-- `AttributesData` from attributes.rs: a map from attribute name to value,
modelled as an association list (unique keys). -/
structure AttributesData where
  inner : List (String × String)
deriving DecidableEq

/-- `AttributesData::new`. -/
def AttributesData.new : AttributesData := ⟨[]⟩

/-- `HashMap::get` on the inner map. -/
def AttributesData.get? (d : AttributesData) (k : String) : Option String :=
  (d.inner.find? (fun p => p.1 == k)).map (fun p => p.2)

/-- `HashMap::contains_key` on the inner map. -/
def AttributesData.contains_key (d : AttributesData) (k : String) : Bool :=
  (d.get? k).isSome

/-- `HashMap::insert` on the inner map (overwrites the key). -/
def AttributesData.insert (d : AttributesData) (k v : String) : AttributesData :=
  ⟨d.inner.filter (fun p => !(p.1 == k)) ++ [(k, v)]⟩

/-- `HashMap::remove` on the inner map. -/
def AttributesData.remove (d : AttributesData) (k : String) : AttributesData :=
  ⟨d.inner.filter (fun p => !(p.1 == k))⟩

/-- `AttributesData::is_empty` from attributes.rs: no non-REMOVE values remain. -/
def AttributesData.is_empty (d : AttributesData) : Bool :=
  (d.inner.filter (fun p => !should_remove p.2)).length == 0

/-- `AttributesData::remove_empty` from attributes.rs. -/
def AttributesData.remove_empty (d : AttributesData) : AttributesData :=
  ⟨d.inner.filter (fun p => !should_remove p.2)⟩

/-- `AttributesData::extend` from attributes.rs (`HashMap::extend`: the other
map's entries overwrite existing keys). -/
def AttributesData.extend (d other : AttributesData) : AttributesData :=
  other.inner.foldl (fun m p => m.insert p.1 p.2) d

/-- `Attributes` from attributes.rs. -/
inductive Attributes where
  | Follow
  | Custom (data : AttributesData)
  | Empty
deriving DecidableEq

/-- `Attributes::data` from attributes.rs. -/
def Attributes.data : Attributes → Option AttributesData
  | .Follow => none
  | .Custom d => some d
  | .Empty => none

/-- `AttributesDataRule::into_attributes` from attributes.rs: normalize and
collapse an empty map to `Empty`. -/
def AttributesData.into_attributes (d : AttributesData) : Attributes :=
  let d := d.remove_empty
  if d.is_empty then Attributes.Empty else Attributes.Custom d

/-- `AttributesRule::apply_rule` from attributes.rs. -/
def Attributes.apply_rule : Attributes → Attributes
  | .Follow => .Follow
  | .Custom d => d.into_attributes
  | .Empty => .Empty

/-- `OTError` from errors.rs (a unit error value). -/
inductive OTError where
  | mk
deriving DecidableEq

/-- Modelled from the spec: `Operation` (operation.rs is not under src/).
Exactly one of `Insert { text, attributes }`, `Retain { n, attributes }`,
`Delete(n)`; `Delete` carries no attributes (spec section 3). -/
inductive Operation where
  | Delete (n : Nat)
  | Insert (s : List Char) (attributes : Attributes)
  | Retain (n : Nat) (attributes : Attributes)
deriving DecidableEq

/-- Modelled from the spec: `Operation` length (spec section 3):
`Insert.length` = character count of text, `Retain.length = n`,
`Delete.length = n`. -/
def Operation.length : Operation → Nat
  | .Delete n => n
  | .Insert s _ => s.length
  | .Retain n _ => n

/-- Modelled from the spec: `Operation::get_attributes`; a `Delete` carries no
attributes, so it yields `Empty` (spec sections 3 and 4.6). -/
def Operation.get_attributes : Operation → Attributes
  | .Delete _ => .Empty
  | .Insert _ a => a
  | .Retain _ a => a

/-- `attributes_from` from attributes.rs. -/
def attributes_from : Option Operation → Option Attributes
  | none => none
  | some op => some op.get_attributes

/-- `merge_attributes` from attributes.rs. -/
def merge_attributes (attributes : Attributes) (other : Option Attributes) : Attributes :=
  let other := other.getD Attributes.Empty
  match attributes, other with
  | Attributes.Custom d, Attributes.Custom o => Attributes.Custom (d.extend o)
  | Attributes.Custom d, _ => Attributes.Custom d
  | _, o => o

/-- `compose_attributes` from attributes.rs (match arms in source order;
the final `apply_rule` normalizes the result). -/
def compose_attributes (left right : Option Operation) : Attributes :=
  match left, right with
  | none, none => Attributes.Empty
  | _, _ =>
    let attr_l := attributes_from left
    let attr_r := attributes_from right
    let attr :=
      match attr_l, attr_r with
      | none, some (Attributes.Custom d) => Attributes.Custom d
      | some al, some (Attributes.Custom d) => merge_attributes al (some (Attributes.Custom d))
      | some (Attributes.Custom d), some Attributes.Follow =>
        merge_attributes (Attributes.Custom d) attr_r
      | some Attributes.Follow, some Attributes.Follow => Attributes.Follow
      | _, _ => Attributes.Empty
    attr.apply_rule

/-- `transform_attribute_data` from attributes.rs: keep the entries of `right`
whose keys are absent from `left`. -/
def transform_attribute_data (left right : AttributesData) : AttributesData :=
  right.inner.foldl
    (fun new_attr_data p =>
      if ¬ left.contains_key p.1 then new_attr_data.insert p.1 p.2 else new_attr_data)
    AttributesData.new

/-- `transform_attributes` from attributes.rs. In the source, the
`right.unwrap()` calls panic when `right` is `None`; those states are
unreachable from `Delta::transform` and are mapped to `Empty` here. -/
def transform_attributes (left right : Option Attributes) (priority : Bool) : Attributes :=
  match left with
  | none =>
    match right with
    | none => Attributes.Empty
    | some Attributes.Follow => Attributes.Follow
    | some (Attributes.Custom d) => Attributes.Custom d
    | some Attributes.Empty => Attributes.Empty
  | some l =>
    if ¬ priority then
      match right with
      | some r => r
      | none => Attributes.Empty
    else
      match l, right with
      | Attributes.Custom dl, some (Attributes.Custom dr) =>
        Attributes.Custom (transform_attribute_data dl dr)
      | _, _ => Attributes.Empty

/-- `transform_op_attributes` from attributes.rs. -/
def transform_op_attributes (left right : Option Operation) (priority : Bool) : Attributes :=
  transform_attributes (attributes_from left) (attributes_from right) priority

/-- `invert_attributes` from attributes.rs. -/
def invert_attributes (attr base : Attributes) : Attributes :=
  let attrD := attr.data
  let baseD := base.data
  if attrD = none ∧ baseD = none then Attributes.Empty
  else
    let attr := attrD.getD AttributesData.new
    let base := baseD.getD AttributesData.new
    let base_inverted := base.inner.foldl
      (fun attributes p =>
        if base.get? p.1 ≠ attr.get? p.1 ∧ attr.contains_key p.1 then
          attributes.insert p.1 p.2
        else attributes)
      AttributesData.new
    let inverted := attr.inner.foldl
      (fun attributes p =>
        if base.get? p.1 ≠ attr.get? p.1 ∧ ¬ base.contains_key p.1 then
          attributes.remove p.1
        else attributes)
      base_inverted
    Attributes.Custom inverted

/-- `Delta` from delta.rs. -/
structure Delta where
  ops : List Operation
  base_len : Nat
  target_len : Nat
deriving DecidableEq

instance : Inhabited Delta := ⟨⟨[], 0, 0⟩⟩

/-- `Delta::default`. -/
def Delta.default : Delta := ⟨[], 0, 0⟩

/-- Tail update for `Delta::delete` from delta.rs (ops are inspected from the
back, so the helper works on the reversed ops list): merge into a trailing
`Delete`, else push. -/
def pushDelete (rops : List Operation) (n : Nat) : List Operation :=
  match rops with
  | Operation.Delete m :: rest => Operation.Delete (m + n) :: rest
  | _ => Operation.Delete n :: rops

/-- Tail update for `Delta::insert` from delta.rs on the reversed ops list,
in source slice-pattern order: `[.., Insert]` merges when attributes are equal
(`merge_or_new_op`, modelled from the spec since operation.rs is not under
src/), else pushes; `[.., Insert, Delete]` merges into the earlier insert or
pushes at the end; `[.., Delete]` swaps the new insert before the delete. -/
def pushInsert (rops : List Operation) (s : List Char) (attrs : Attributes) : List Operation :=
  match rops with
  | Operation.Insert s0 a0 :: rest =>
    if a0 = attrs then Operation.Insert (s0 ++ s) a0 :: rest
    else Operation.Insert s attrs :: Operation.Insert s0 a0 :: rest
  | Operation.Delete k :: Operation.Insert s0 a0 :: rest =>
    if a0 = attrs then Operation.Delete k :: Operation.Insert (s0 ++ s) a0 :: rest
    else Operation.Insert s attrs :: Operation.Delete k :: Operation.Insert s0 a0 :: rest
  | Operation.Delete k :: rest =>
    Operation.Delete k :: Operation.Insert s attrs :: rest
  | _ => Operation.Insert s attrs :: rops

/-- Tail update for `Delta::retain` from delta.rs on the reversed ops list:
merge into a trailing `Retain` with equal attributes, else push. -/
def pushRetain (rops : List Operation) (n : Nat) (attrs : Attributes) : List Operation :=
  match rops with
  | Operation.Retain m a0 :: rest =>
    if a0 = attrs then Operation.Retain (m + n) a0 :: rest
    else Operation.Retain n attrs :: Operation.Retain m a0 :: rest
  | _ => Operation.Retain n attrs :: rops

/-- `Delta::delete` from delta.rs. -/
def Delta.delete (d : Delta) (n : Nat) : Delta :=
  if n = 0 then d
  else
    { ops := (pushDelete d.ops.reverse n).reverse
      base_len := d.base_len + n
      target_len := d.target_len }

/-- `Delta::insert` from delta.rs. -/
def Delta.insert (d : Delta) (s : List Char) (attrs : Attributes) : Delta :=
  if s.isEmpty then d
  else
    { ops := (pushInsert d.ops.reverse s attrs).reverse
      base_len := d.base_len
      target_len := d.target_len + s.length }

/-- `Delta::retain` from delta.rs. -/
def Delta.retain (d : Delta) (n : Nat) (attrs : Attributes) : Delta :=
  if n = 0 then d
  else
    { ops := (pushRetain d.ops.reverse n attrs).reverse
      base_len := d.base_len + n
      target_len := d.target_len + n }

/-- `Delta::add` from delta.rs. -/
def Delta.add (d : Delta) (op : Operation) : Delta :=
  match op with
  | Operation.Delete i => d.delete i
  | Operation.Insert s a => d.insert s a
  | Operation.Retain n a => d.retain n a

/-- The op walk of `Delta::apply` from delta.rs: `Retain` emits the next `n`
base characters, `Delete` discards the next `n`, `Insert` emits its text. -/
def applyOps : List Operation → List Char → List Char
  | [], _ => []
  | Operation.Retain n _ :: rest, s => s.take n ++ applyOps rest (s.drop n)
  | Operation.Delete n :: rest, s => applyOps rest (s.drop n)
  | Operation.Insert t _ :: rest, s => t ++ applyOps rest s

/-- `Delta::apply` from delta.rs: fail with `LengthMismatch` unless the
character count of the base equals `base_len`, then walk the ops. -/
def Delta.apply (d : Delta) (s : List Char) : Except OTError (List Char) :=
  if s.length ≠ d.base_len then Except.error OTError.mk
  else Except.ok (applyOps d.ops s)

/-- The co-iteration loop of `Delta::compose` from delta.rs, with the source's
match arms in order.  Splitting follows the source: split retains are rebuilt
with default (`Empty`) attributes except where the source passes attributes
explicitly. -/
def composeLoop : List Operation → List Operation → Delta → Except OTError Delta
  | [], [], acc => Except.ok acc
  | Operation.Delete i :: la, lb, acc => composeLoop la lb (acc.delete i)
  | la, Operation.Insert t a2 :: lb, acc => composeLoop la lb (acc.insert t a2)
  | [], _, _ => Except.error OTError.mk
  | _, [], _ => Except.error OTError.mk
  | Operation.Retain n a1 :: la, Operation.Retain m a2 :: lb, acc =>
    let composed := compose_attributes (some (Operation.Retain n a1)) (some (Operation.Retain m a2))
    if n < m then
      composeLoop la (Operation.Retain (m - n) Attributes.Empty :: lb) (acc.retain n composed)
    else if n = m then
      composeLoop la lb (acc.retain n composed)
    else
      composeLoop (Operation.Retain (n - m) Attributes.Empty :: la) lb (acc.retain m composed)
  | Operation.Insert t a1 :: la, Operation.Delete k :: lb, acc =>
    if t.length < k then
      composeLoop la (Operation.Delete (k - t.length) :: lb) acc
    else if t.length = k then
      composeLoop la lb acc
    else
      composeLoop (Operation.Insert (t.drop k) Attributes.Empty :: la) lb acc
  | Operation.Insert t a1 :: la, Operation.Retain m a2 :: lb, acc =>
    let composed := compose_attributes (some (Operation.Insert t a1)) (some (Operation.Retain m a2))
    if t.length < m then
      composeLoop la (Operation.Retain (m - t.length) composed :: lb) (acc.insert t composed)
    else if t.length = m then
      composeLoop la lb (acc.insert t composed)
    else
      composeLoop (Operation.Insert (t.drop m) Attributes.Empty :: la) lb (acc.insert (t.take m) composed)
  | Operation.Retain n a1 :: la, Operation.Delete k :: lb, acc =>
    if n < k then
      composeLoop la (Operation.Delete (k - n) :: lb) (acc.delete n)
    else if n = k then
      composeLoop la lb (acc.delete k)
    else
      composeLoop (Operation.Retain (n - k) Attributes.Empty :: la) lb (acc.delete k)
termination_by la lb _ => ((la.map (fun op => op.length + 1)).sum + (lb.map (fun op => op.length + 1)).sum)
decreasing_by
  all_goals simp [Operation.length]
  all_goals omega

/-- `Delta::compose` from delta.rs. -/
def Delta.compose (d other : Delta) : Except OTError Delta :=
  if d.target_len ≠ other.base_len then Except.error OTError.mk
  else composeLoop d.ops other.ops Delta.default

/-- The co-iteration loop of `Delta::transform` from delta.rs, with the
source's match arms in order: self's inserts take precedence, then other's
inserts, then errors on one-sided exhaustion, then the retain/delete pairs. -/
def transformLoop : List Operation → List Operation → Delta → Delta → Except OTError (Delta × Delta)
  | [], [], aP, bP => Except.ok (aP, bP)
  | Operation.Insert t a1 :: la, lb, aP, bP =>
    transformLoop la lb (aP.insert t a1) (bP.retain t.length a1)
  | la, Operation.Insert t a2 :: lb, aP, bP =>
    let composed := transform_op_attributes la.head? (some (Operation.Insert t a2)) true
    transformLoop la lb (aP.retain t.length composed) (bP.insert t composed)
  | [], _, _, _ => Except.error OTError.mk
  | _, [], _, _ => Except.error OTError.mk
  | Operation.Retain n a1 :: la, Operation.Retain m a2 :: lb, aP, bP =>
    let composed := transform_op_attributes (some (Operation.Retain n a1))
      (some (Operation.Retain m a2)) true
    if n < m then
      transformLoop la (Operation.Retain (m - n) Attributes.Empty :: lb)
        (aP.retain n composed) (bP.retain n composed)
    else if n = m then
      transformLoop la lb (aP.retain n composed) (bP.retain n composed)
    else
      transformLoop (Operation.Retain (n - m) Attributes.Empty :: la) lb
        (aP.retain m composed) (bP.retain m composed)
  | Operation.Delete i :: la, Operation.Delete j :: lb, aP, bP =>
    if i < j then transformLoop la (Operation.Delete (j - i) :: lb) aP bP
    else if i = j then transformLoop la lb aP bP
    else transformLoop (Operation.Delete (i - j) :: la) lb aP bP
  | Operation.Delete i :: la, Operation.Retain m a2 :: lb, aP, bP =>
    if i < m then transformLoop la (Operation.Retain (m - i) Attributes.Empty :: lb) (aP.delete i) bP
    else if i = m then transformLoop la lb (aP.delete i) bP
    else transformLoop (Operation.Delete (i - m) :: la) lb (aP.delete m) bP
  | Operation.Retain n a1 :: la, Operation.Delete j :: lb, aP, bP =>
    if n < j then transformLoop la (Operation.Delete (j - n) :: lb) aP (bP.delete n)
    else if n = j then transformLoop la lb aP (bP.delete n)
    else transformLoop (Operation.Retain (n - j) Attributes.Empty :: la) lb aP (bP.delete j)
termination_by la lb _ _ => ((la.map (fun op => op.length + 1)).sum + (lb.map (fun op => op.length + 1)).sum)
decreasing_by
  all_goals simp [Operation.length]
  all_goals omega

/-- `Delta::transform` from delta.rs. -/
def Delta.transform (d other : Delta) : Except OTError (Delta × Delta) :=
  if d.base_len ≠ other.base_len then Except.error OTError.mk
  else transformLoop d.ops other.ops Delta.default Delta.default

/-- The op walk of `Delta::invert` from delta.rs: retains become `Follow`
retains, inserts become deletes, deletes reinsert the consumed base text with
the delete op's (always `Empty`) attributes. -/
def invertLoop : List Operation → List Char → Delta → Delta
  | [], _, acc => acc
  | Operation.Retain n a :: rest, s, acc =>
    invertLoop rest (s.drop n) (acc.retain n Attributes.Follow)
  | Operation.Insert t a :: rest, s, acc =>
    invertLoop rest s (acc.delete t.length)
  | Operation.Delete n :: rest, s, acc =>
    invertLoop rest (s.drop n) (acc.insert (s.take n) (Operation.Delete n).get_attributes)

/-- `Delta::invert` from delta.rs. -/
def Delta.invert (d : Delta) (s : List Char) : Delta :=
  invertLoop d.ops s Delta.default

/-- `Delta::is_noop` from delta.rs: true for an empty op list or a single
`Retain`, whatever its attributes. -/
def Delta.is_noop (d : Delta) : Bool :=
  match d.ops with
  | [] => true
  | [Operation.Retain _ _] => true
  | _ => false

/-- Modelled from the spec: `Interval` (interval.rs is not under src/), a
`[start, end)` range; the `end` field is named `stop` here because `end` is a
Lean keyword, and the type is named `OTInterval` to avoid clashing with
Mathlib's `Interval`. -/
structure OTInterval where
  start : Nat
  stop : Nat
deriving DecidableEq

/-- The while loop of `Delta::ops_in_interval` from delta.rs: walk ops
accumulating the start offset; stop once the offset reaches `interval.end`;
skip ops that start before `interval.start`, push the others whole. -/
def opsInIntervalGo (interval : OTInterval) : List Operation → Nat → List Operation
  | [], _ => []
  | op :: rest, offset =>
    if offset < interval.stop then
      if offset < interval.start then opsInIntervalGo interval rest (offset + op.length)
      else op :: opsInIntervalGo interval rest (offset + op.length)
    else []

/-- `Delta::ops_in_interval` from delta.rs. -/
def Delta.ops_in_interval (d : Delta) (interval : OTInterval) : List Operation :=
  opsInIntervalGo interval d.ops 0

/-- Base-side length of one op (`Retain` and `Delete` consume the base). -/
def opBase : Operation → Nat
  | Operation.Retain n _ => n
  | Operation.Delete n => n
  | Operation.Insert _ _ => 0

/-- Target-side length of one op (`Retain` and `Insert` produce output). -/
def opTarget : Operation → Nat
  | Operation.Retain n _ => n
  | Operation.Delete _ => 0
  | Operation.Insert s _ => s.length

/-- Sum of the base-side lengths (`Retain` and `Delete`) of an op list. -/
def opsBaseLen (l : List Operation) : Nat := (l.map opBase).sum

/-- Sum of the target-side lengths (`Retain` and `Insert`) of an op list. -/
def opsTargetLen (l : List Operation) : Nat := (l.map opTarget).sum

/-- Every op has positive length (the builder never keeps zero-length ops). -/
def PosOps (l : List Operation) : Prop :=
  ∀ op ∈ l, 0 < op.length

instance : DecidablePred PosOps := fun l =>
  inferInstanceAs (Decidable (∀ op ∈ l, 0 < op.length))

/-- A delta is well-formed when its cached lengths agree with its ops and no
op has zero length; every builder-constructed delta satisfies this. -/
def Delta.Wf (d : Delta) : Prop :=
  d.base_len = opsBaseLen d.ops ∧ d.target_len = opsTargetLen d.ops ∧ PosOps d.ops

instance (d : Delta) : Decidable d.Wf :=
  inferInstanceAs (Decidable (_ ∧ _ ∧ _))

example : Delta.apply ⟨[Operation.Retain 2 Attributes.Empty], 2, 2⟩ ['a','b'] =
    Except.ok ['a','b'] := by rfl

example : (Delta.default.delete 3).insert ['a','b'] Attributes.Empty =
    ⟨[Operation.Insert ['a','b'] Attributes.Empty, Operation.Delete 3], 3, 2⟩ := by decide

/-- An `Attributes` value in released (normalized) form: a `Custom` map is
non-empty and holds no REMOVE-marked entries. -/
def normalizedAttrs : Attributes → Bool
  | Attributes.Custom d => (!d.inner.isEmpty) && d.inner.all (fun p => !should_remove p.2)
  | _ => true

/-- Adjacent op pair that the builder would keep as two ops (no merging,
no delete-insert canonicalization): spec section 3 normalization invariants. -/
def okPairB : Operation → Operation → Bool
  | Operation.Delete _, Operation.Delete _ => false
  | Operation.Delete _, Operation.Insert _ _ => false
  | Operation.Retain _ a, Operation.Retain _ b => decide (a ≠ b)
  | Operation.Insert _ a, Operation.Insert _ b => decide (a ≠ b)
  | _, _ => true

/-- Builder normal form of an op list: every adjacent pair is kept. -/
def normalOps : List Operation → Bool
  | [] => true
  | [_] => true
  | op1 :: op2 :: rest => okPairB op1 op2 && normalOps (op2 :: rest)

/-- All ops carry `Empty` attributes (`Delete` always does). -/
def emptyAttrsOps (l : List Operation) : Bool :=
  l.all (fun op => op.get_attributes == Attributes.Empty)

/-- One call to the `Delta` builder interface. -/
inductive BuildStep where
  | del (n : Nat)
  | ins (s : List Char) (attrs : Attributes)
  | ret (n : Nat) (attrs : Attributes)

/-- Run one builder call. -/
def runBuildStep (d : Delta) : BuildStep → Delta
  | BuildStep.del n => d.delete n
  | BuildStep.ins s attrs => d.insert s attrs
  | BuildStep.ret n attrs => d.retain n attrs

/-- A delta built from the default delta by a sequence of builder calls. -/
def buildDelta (steps : List BuildStep) : Delta :=
  steps.foldl runBuildStep Delta.default

/-- The ops whose start offset (accumulated op lengths) lies inside the
interval; the reference point for what `ops_in_interval` actually returns. -/
def opsWithStartIn (interval : OTInterval) : List Operation → Nat → List Operation
  | [], _ => []
  | op :: rest, offset =>
    (if interval.start ≤ offset ∧ offset < interval.stop then [op] else []) ++
      opsWithStartIn interval rest (offset + op.length)

/-! ## Basic length and apply lemmas -/

theorem opsBaseLen_nil : opsBaseLen [] = 0 := rfl

theorem opsBaseLen_cons (op : Operation) (l : List Operation) :
    opsBaseLen (op :: l) = opBase op + opsBaseLen l := by
  simp [opsBaseLen]

theorem opsBaseLen_append (l1 l2 : List Operation) :
    opsBaseLen (l1 ++ l2) = opsBaseLen l1 + opsBaseLen l2 := by
  simp [opsBaseLen]

theorem opsBaseLen_reverse (l : List Operation) :
    opsBaseLen l.reverse = opsBaseLen l := by
  simp [opsBaseLen, List.sum_reverse]

theorem opsTargetLen_nil : opsTargetLen [] = 0 := rfl

theorem opsTargetLen_cons (op : Operation) (l : List Operation) :
    opsTargetLen (op :: l) = opTarget op + opsTargetLen l := by
  simp [opsTargetLen]

theorem opsTargetLen_append (l1 l2 : List Operation) :
    opsTargetLen (l1 ++ l2) = opsTargetLen l1 + opsTargetLen l2 := by
  simp [opsTargetLen]

theorem opsTargetLen_reverse (l : List Operation) :
    opsTargetLen l.reverse = opsTargetLen l := by
  simp [opsTargetLen, List.sum_reverse]

theorem applyOps_truncate : ∀ (l : List Operation) (s : List Char),
    applyOps l s = applyOps l (s.take (opsBaseLen l))
  | [], s => rfl
  | Operation.Retain n a :: rest, s => by
    simp only [applyOps, opsBaseLen_cons, opBase]
    rw [List.take_take, Nat.min_eq_left (Nat.le_add_right _ _), List.drop_take,
      Nat.add_sub_cancel_left]
    exact congrArg _ (applyOps_truncate rest (s.drop n))
  | Operation.Delete n :: rest, s => by
    simp only [applyOps, opsBaseLen_cons, opBase]
    rw [List.drop_take, Nat.add_sub_cancel_left]
    exact applyOps_truncate rest (s.drop n)
  | Operation.Insert t a :: rest, s => by
    simp only [applyOps, opsBaseLen_cons, opBase, Nat.zero_add]
    exact congrArg _ (applyOps_truncate rest s)

theorem applyOps_append : ∀ (l1 l2 : List Operation) (s : List Char),
    applyOps (l1 ++ l2) s =
      applyOps l1 (s.take (opsBaseLen l1)) ++ applyOps l2 (s.drop (opsBaseLen l1))
  | [], l2, s => by simp [applyOps, opsBaseLen_nil]
  | Operation.Retain n a :: rest, l2, s => by
    simp only [List.cons_append, applyOps, opsBaseLen_cons, opBase, List.append_eq]
    rw [applyOps_append rest l2 (s.drop n)]
    rw [List.take_take, Nat.min_eq_left (Nat.le_add_right _ _), List.drop_take,
      Nat.add_sub_cancel_left, List.drop_drop, List.append_assoc]
  | Operation.Delete n :: rest, l2, s => by
    simp only [List.cons_append, applyOps, opsBaseLen_cons, opBase, List.append_eq]
    rw [applyOps_append rest l2 (s.drop n)]
    rw [List.drop_take, Nat.add_sub_cancel_left, List.drop_drop]
  | Operation.Insert t a :: rest, l2, s => by
    simp only [List.cons_append, applyOps, opsBaseLen_cons, opBase, Nat.zero_add,
      List.append_eq]
    rw [applyOps_append rest l2 s, List.append_assoc]

theorem applyOps_length : ∀ (l : List Operation) (s : List Char),
    opsBaseLen l = s.length → (applyOps l s).length = opsTargetLen l
  | [], s, h => by simp [applyOps, opsTargetLen_nil]
  | Operation.Retain n a :: rest, s, h => by
    rw [opsBaseLen_cons] at h
    simp only [applyOps, opsTargetLen_cons, opTarget, List.length_append]
    rw [applyOps_length rest (s.drop n) (by simp [opBase] at h ⊢; omega)]
    rw [List.length_take]
    simp [opBase] at h
    omega
  | Operation.Delete n :: rest, s, h => by
    rw [opsBaseLen_cons] at h
    simp only [applyOps, opsTargetLen_cons, opTarget, Nat.zero_add]
    exact applyOps_length rest (s.drop n) (by simp [opBase] at h ⊢; omega)
  | Operation.Insert t a :: rest, s, h => by
    rw [opsBaseLen_cons] at h
    simp only [applyOps, opsTargetLen_cons, opTarget, List.length_append]
    rw [applyOps_length rest s (by simp [opBase] at h ⊢; omega)]

/-! ## Builder helper lemmas: pushing one op is apply-equivalent to appending -/

theorem applyOps_congr_append {l1 l2 : List Operation}
    (hB : opsBaseLen l1 = opsBaseLen l2)
    (hsem : ∀ s, applyOps l1 s = applyOps l2 s) (xs : List Operation) (s : List Char) :
    applyOps (xs ++ l1) s = applyOps (xs ++ l2) s := by
  rw [applyOps_append, applyOps_append, hsem]

theorem pushDelete_sem (r : List Operation) (n : Nat) (s : List Char) :
    applyOps (pushDelete r n).reverse s = applyOps (r.reverse ++ [Operation.Delete n]) s := by
  match r with
  | Operation.Delete m :: rest =>
    show applyOps (Operation.Delete (m + n) :: rest).reverse s = _
    rw [List.reverse_cons, List.reverse_cons, List.append_assoc]
    refine applyOps_congr_append ?_ (fun s => by simp [applyOps]) rest.reverse s
    simp only [opsBaseLen, List.map, List.sum_cons, List.sum_nil, opBase]
    omega
  | [] => rfl
  | Operation.Insert t a :: rest => simp [pushDelete]
  | Operation.Retain m a :: rest => simp [pushDelete]

theorem pushRetain_sem (r : List Operation) (n : Nat) (attrs : Attributes) (s : List Char) :
    applyOps (pushRetain r n attrs).reverse s =
      applyOps (r.reverse ++ [Operation.Retain n attrs]) s := by
  match r with
  | Operation.Retain m a0 :: rest =>
    by_cases h : a0 = attrs
    · simp only [pushRetain, if_pos h, List.reverse_cons, List.append_assoc]
      refine applyOps_congr_append ?_ (fun s => ?_) rest.reverse s
      · simp only [opsBaseLen, List.map, List.sum_cons, List.sum_nil, opBase]
        omega
      · simp only [applyOps, List.append_nil, List.drop_nil]
        rw [List.take_add]
    · simp [pushRetain, if_neg h]
  | [] => rfl
  | Operation.Insert t a :: rest => simp [pushRetain]
  | Operation.Delete m :: rest => simp [pushRetain]

theorem pushInsert_swap_sem (rest2 : List Operation) (k : Nat) (t : List Char)
    (attrs : Attributes) (s : List Char) :
    applyOps (Operation.Delete k :: Operation.Insert t attrs :: rest2).reverse s =
      applyOps ((Operation.Delete k :: rest2).reverse ++ [Operation.Insert t attrs]) s := by
  simp only [List.reverse_cons, List.append_assoc]
  refine applyOps_congr_append ?_ (fun s => ?_) rest2.reverse s
  · simp only [opsBaseLen, List.map, List.sum_cons, List.sum_nil, opBase]
    omega
  · simp [applyOps]

theorem pushInsert_sem (r : List Operation) (t : List Char) (attrs : Attributes) (s : List Char) :
    applyOps (pushInsert r t attrs).reverse s =
      applyOps (r.reverse ++ [Operation.Insert t attrs]) s := by
  match r with
  | Operation.Insert s0 a0 :: rest =>
    by_cases h : a0 = attrs
    · simp only [pushInsert, if_pos h, List.reverse_cons, List.append_assoc]
      refine applyOps_congr_append ?_ (fun s => ?_) rest.reverse s
      · simp only [opsBaseLen, List.map, List.sum_cons, List.sum_nil, opBase]
        omega
      · simp [applyOps]
    · simp [pushInsert, if_neg h]
  | Operation.Delete k :: Operation.Insert s0 a0 :: rest =>
    by_cases h : a0 = attrs
    · simp only [pushInsert, if_pos h, List.reverse_cons, List.append_assoc]
      refine applyOps_congr_append ?_ (fun s => ?_) rest.reverse s
      · simp only [opsBaseLen, List.map, List.sum_cons, List.sum_nil, opBase]
        omega
      · simp [applyOps]
    · simp [pushInsert, if_neg h]
  | Operation.Delete k :: [] => exact pushInsert_swap_sem [] k t attrs s
  | Operation.Delete k :: Operation.Delete j :: rest =>
    exact pushInsert_swap_sem (Operation.Delete j :: rest) k t attrs s
  | Operation.Delete k :: Operation.Retain m a0 :: rest =>
    exact pushInsert_swap_sem (Operation.Retain m a0 :: rest) k t attrs s
  | [] => rfl
  | Operation.Retain m a0 :: rest => simp [pushInsert]

theorem pushDelete_counts (r : List Operation) (n : Nat) :
    opsBaseLen (pushDelete r n) = opsBaseLen r + n ∧
      opsTargetLen (pushDelete r n) = opsTargetLen r := by
  match r with
  | Operation.Delete m :: rest =>
    simp only [pushDelete, opsBaseLen_cons, opsTargetLen_cons, opBase, opTarget, and_true, true_and]
    try omega
  | [] => simp [pushDelete, opsBaseLen, opsTargetLen, opBase, opTarget]
  | Operation.Insert t a :: rest =>
    simp only [pushDelete, opsBaseLen_cons, opsTargetLen_cons, opBase, opTarget, and_true, true_and]
    try omega
  | Operation.Retain m a :: rest =>
    simp only [pushDelete, opsBaseLen_cons, opsTargetLen_cons, opBase, opTarget, and_true, true_and]
    try omega

theorem pushRetain_counts (r : List Operation) (n : Nat) (attrs : Attributes) :
    opsBaseLen (pushRetain r n attrs) = opsBaseLen r + n ∧
      opsTargetLen (pushRetain r n attrs) = opsTargetLen r + n := by
  match r with
  | Operation.Retain m a0 :: rest =>
    by_cases h : a0 = attrs
    · simp only [pushRetain, if_pos h, opsBaseLen_cons, opsTargetLen_cons, opBase, opTarget, and_true, true_and]
      try omega
    · simp only [pushRetain, if_neg h, opsBaseLen_cons, opsTargetLen_cons, opBase, opTarget, and_true, true_and]
      try omega
  | [] => simp [pushRetain, opsBaseLen, opsTargetLen, opBase, opTarget]
  | Operation.Insert t a :: rest =>
    simp only [pushRetain, opsBaseLen_cons, opsTargetLen_cons, opBase, opTarget, and_true, true_and]
    try omega
  | Operation.Delete m :: rest =>
    simp only [pushRetain, opsBaseLen_cons, opsTargetLen_cons, opBase, opTarget, and_true, true_and]
    try omega

theorem pushInsert_counts (r : List Operation) (t : List Char) (attrs : Attributes) :
    opsBaseLen (pushInsert r t attrs) = opsBaseLen r ∧
      opsTargetLen (pushInsert r t attrs) = opsTargetLen r + t.length := by
  match r with
  | Operation.Insert s0 a0 :: rest =>
    by_cases h : a0 = attrs
    · simp only [pushInsert, if_pos h, opsBaseLen_cons, opsTargetLen_cons, opBase, opTarget,
        List.length_append, and_true, true_and]
      try omega
    · simp only [pushInsert, if_neg h, opsBaseLen_cons, opsTargetLen_cons, opBase, opTarget, and_true, true_and]
      try omega
  | Operation.Delete k :: Operation.Insert s0 a0 :: rest =>
    by_cases h : a0 = attrs
    · simp only [pushInsert, if_pos h, opsBaseLen_cons, opsTargetLen_cons, opBase, opTarget,
        List.length_append, and_true, true_and]
      try omega
    · simp only [pushInsert, if_neg h, opsBaseLen_cons, opsTargetLen_cons, opBase, opTarget, and_true, true_and]
      try omega
  | Operation.Delete k :: [] =>
    show opsBaseLen [Operation.Delete k, Operation.Insert t attrs] = _ ∧
      opsTargetLen [Operation.Delete k, Operation.Insert t attrs] = _
    simp only [opsBaseLen_cons, opsTargetLen_cons, opBase, opTarget, opsBaseLen_nil,
      opsTargetLen_nil, and_true, true_and]
    try omega
  | Operation.Delete k :: Operation.Delete j :: rest =>
    show opsBaseLen (Operation.Delete k :: Operation.Insert t attrs :: Operation.Delete j ::
        rest) = _ ∧ opsTargetLen (Operation.Delete k :: Operation.Insert t attrs ::
        Operation.Delete j :: rest) = _
    simp only [opsBaseLen_cons, opsTargetLen_cons, opBase, opTarget, and_true, true_and]
    try omega
  | Operation.Delete k :: Operation.Retain m a0 :: rest =>
    show opsBaseLen (Operation.Delete k :: Operation.Insert t attrs :: Operation.Retain m a0 ::
        rest) = _ ∧ opsTargetLen (Operation.Delete k :: Operation.Insert t attrs ::
        Operation.Retain m a0 :: rest) = _
    simp only [opsBaseLen_cons, opsTargetLen_cons, opBase, opTarget, and_true, true_and]
    try omega
  | [] => simp [pushInsert, opsBaseLen, opsTargetLen, opBase, opTarget]
  | Operation.Retain m a0 :: rest =>
    simp only [pushInsert, opsBaseLen_cons, opsTargetLen_cons, opBase, opTarget, and_true, true_and]
    try omega

/-! ## Delta builder lemmas -/

theorem Delta.delete_ops_sem (d : Delta) (n : Nat) (s : List Char) :
    applyOps (d.delete n).ops s = applyOps (d.ops ++ [Operation.Delete n]) s := by
  by_cases h : n = 0
  · subst h
    show applyOps d.ops s = _
    rw [applyOps_append]
    simp [applyOps, ← applyOps_truncate]
  · simp only [Delta.delete, if_neg h]
    rw [pushDelete_sem, List.reverse_reverse]

theorem Delta.insert_ops_sem (d : Delta) (t : List Char) (a : Attributes) (s : List Char) :
    applyOps (d.insert t a).ops s = applyOps (d.ops ++ [Operation.Insert t a]) s := by
  by_cases h : t.isEmpty
  · have ht : t = [] := List.isEmpty_iff.mp h
    subst ht
    show applyOps d.ops s = _
    rw [applyOps_append]
    simp [applyOps, ← applyOps_truncate]
  · simp only [Delta.insert, if_neg h]
    rw [pushInsert_sem, List.reverse_reverse]

theorem Delta.retain_ops_sem (d : Delta) (n : Nat) (a : Attributes) (s : List Char) :
    applyOps (d.retain n a).ops s = applyOps (d.ops ++ [Operation.Retain n a]) s := by
  by_cases h : n = 0
  · subst h
    show applyOps d.ops s = _
    rw [applyOps_append]
    simp [applyOps, ← applyOps_truncate]
  · simp only [Delta.retain, if_neg h]
    rw [pushRetain_sem, List.reverse_reverse]

theorem Delta.delete_base_len (d : Delta) (n : Nat) :
    (d.delete n).base_len = d.base_len + n := by
  by_cases h : n = 0 <;> simp [Delta.delete, h]

theorem Delta.delete_target_len (d : Delta) (n : Nat) :
    (d.delete n).target_len = d.target_len := by
  by_cases h : n = 0 <;> simp [Delta.delete, h]

theorem Delta.insert_base_len (d : Delta) (t : List Char) (a : Attributes) :
    (d.insert t a).base_len = d.base_len := by
  by_cases h : t.isEmpty <;> simp [Delta.insert, h]

theorem Delta.insert_target_len (d : Delta) (t : List Char) (a : Attributes) :
    (d.insert t a).target_len = d.target_len + t.length := by
  by_cases h : t.isEmpty
  · have ht : t = [] := List.isEmpty_iff.mp h
    subst ht
    simp [Delta.insert]
  · simp [Delta.insert, h]

theorem Delta.retain_base_len (d : Delta) (n : Nat) (a : Attributes) :
    (d.retain n a).base_len = d.base_len + n := by
  by_cases h : n = 0 <;> simp [Delta.retain, h]

theorem Delta.retain_target_len (d : Delta) (n : Nat) (a : Attributes) :
    (d.retain n a).target_len = d.target_len + n := by
  by_cases h : n = 0 <;> simp [Delta.retain, h]

theorem Delta.delete_opsBase (d : Delta) (n : Nat) :
    opsBaseLen (d.delete n).ops = opsBaseLen d.ops + n := by
  by_cases h : n = 0
  · simp [Delta.delete, h]
  · simp only [Delta.delete, if_neg h, opsBaseLen_reverse]
    rw [(pushDelete_counts d.ops.reverse n).1, opsBaseLen_reverse]

theorem Delta.delete_opsTarget (d : Delta) (n : Nat) :
    opsTargetLen (d.delete n).ops = opsTargetLen d.ops := by
  by_cases h : n = 0
  · simp [Delta.delete, h]
  · simp only [Delta.delete, if_neg h, opsTargetLen_reverse]
    rw [(pushDelete_counts d.ops.reverse n).2, opsTargetLen_reverse]

theorem Delta.insert_opsBase (d : Delta) (t : List Char) (a : Attributes) :
    opsBaseLen (d.insert t a).ops = opsBaseLen d.ops := by
  by_cases h : t.isEmpty
  · simp [Delta.insert, h]
  · simp only [Delta.insert, if_neg h, opsBaseLen_reverse]
    rw [(pushInsert_counts d.ops.reverse t a).1, opsBaseLen_reverse]

theorem Delta.insert_opsTarget (d : Delta) (t : List Char) (a : Attributes) :
    opsTargetLen (d.insert t a).ops = opsTargetLen d.ops + t.length := by
  by_cases h : t.isEmpty
  · have ht : t = [] := List.isEmpty_iff.mp h
    subst ht
    simp [Delta.insert]
  · simp only [Delta.insert, if_neg h, opsTargetLen_reverse]
    rw [(pushInsert_counts d.ops.reverse t a).2, opsTargetLen_reverse]

theorem Delta.retain_opsBase (d : Delta) (n : Nat) (a : Attributes) :
    opsBaseLen (d.retain n a).ops = opsBaseLen d.ops + n := by
  by_cases h : n = 0
  · simp [Delta.retain, h]
  · simp only [Delta.retain, if_neg h, opsBaseLen_reverse]
    rw [(pushRetain_counts d.ops.reverse n a).1, opsBaseLen_reverse]

theorem Delta.retain_opsTarget (d : Delta) (n : Nat) (a : Attributes) :
    opsTargetLen (d.retain n a).ops = opsTargetLen d.ops + n := by
  by_cases h : n = 0
  · simp [Delta.retain, h]
  · simp only [Delta.retain, if_neg h, opsTargetLen_reverse]
    rw [(pushRetain_counts d.ops.reverse n a).2, opsTargetLen_reverse]

/-! ## Invert round-trip -/

theorem invertLoop_spec : ∀ (ops : List Operation) (s : List Char) (acc : Delta),
    opsBaseLen ops = s.length →
    (invertLoop ops s acc).base_len = acc.base_len + opsTargetLen ops ∧
    ∀ z : List Char, z.length = opsBaseLen acc.ops →
      applyOps (invertLoop ops s acc).ops (z ++ applyOps ops s) = applyOps acc.ops z ++ s
  | [], s, acc, h => by
    have hs : s = [] := by
      rw [opsBaseLen_nil] at h
      exact (List.eq_nil_of_length_eq_zero h.symm)
    subst hs
    refine ⟨by simp [invertLoop, opsTargetLen_nil], fun z hz => ?_⟩
    simp [invertLoop, applyOps]
  | Operation.Retain n a :: rest, s, acc, h => by
    rw [opsBaseLen_cons, opBase] at h
    have hn : n ≤ s.length := by omega
    have hrest : opsBaseLen rest = (s.drop n).length := by
      rw [List.length_drop]
      omega
    obtain ⟨ih1, ih2⟩ := invertLoop_spec rest (s.drop n) (acc.retain n Attributes.Follow) hrest
    refine ⟨?_, fun z hz => ?_⟩
    · rw [show invertLoop (Operation.Retain n a :: rest) s acc =
        invertLoop rest (s.drop n) (acc.retain n Attributes.Follow) from rfl]
      rw [ih1, Delta.retain_base_len, opsTargetLen_cons, opTarget]
      omega
    · rw [show invertLoop (Operation.Retain n a :: rest) s acc =
        invertLoop rest (s.drop n) (acc.retain n Attributes.Follow) from rfl]
      rw [show applyOps (Operation.Retain n a :: rest) s =
        s.take n ++ applyOps rest (s.drop n) from rfl]
      rw [show z ++ (s.take n ++ applyOps rest (s.drop n)) =
        (z ++ s.take n) ++ applyOps rest (s.drop n) from (List.append_assoc _ _ _).symm]
      rw [ih2 (z ++ s.take n) (by
        rw [List.length_append, List.length_take, Delta.retain_opsBase]
        omega)]
      rw [Delta.retain_ops_sem, applyOps_append, ← hz, List.take_left, List.drop_left]
      rw [show applyOps [Operation.Retain n Attributes.Follow] (s.take n) =
        (s.take n).take n ++ applyOps [] ((s.take n).drop n) from rfl]
      rw [List.take_take, Nat.min_self, applyOps, List.append_nil, List.append_assoc,
        List.take_append_drop]
  | Operation.Insert t a :: rest, s, acc, h => by
    rw [opsBaseLen_cons, opBase] at h
    have hrest : opsBaseLen rest = s.length := by omega
    obtain ⟨ih1, ih2⟩ := invertLoop_spec rest s (acc.delete t.length) hrest
    refine ⟨?_, fun z hz => ?_⟩
    · rw [show invertLoop (Operation.Insert t a :: rest) s acc =
        invertLoop rest s (acc.delete t.length) from rfl]
      rw [ih1, Delta.delete_base_len, opsTargetLen_cons, opTarget]
      omega
    · rw [show invertLoop (Operation.Insert t a :: rest) s acc =
        invertLoop rest s (acc.delete t.length) from rfl]
      rw [show applyOps (Operation.Insert t a :: rest) s = t ++ applyOps rest s from rfl]
      rw [show z ++ (t ++ applyOps rest s) = (z ++ t) ++ applyOps rest s from
        (List.append_assoc _ _ _).symm]
      rw [ih2 (z ++ t) (by
        rw [List.length_append, Delta.delete_opsBase]
        omega)]
      rw [Delta.delete_ops_sem, applyOps_append, ← hz, List.take_left, List.drop_left]
      rw [show applyOps [Operation.Delete t.length] t =
        applyOps [] (t.drop t.length) from rfl]
      rw [applyOps, List.append_nil]
  | Operation.Delete n :: rest, s, acc, h => by
    rw [opsBaseLen_cons, opBase] at h
    have hn : n ≤ s.length := by omega
    have hrest : opsBaseLen rest = (s.drop n).length := by
      rw [List.length_drop]
      omega
    obtain ⟨ih1, ih2⟩ := invertLoop_spec rest (s.drop n)
      (acc.insert (s.take n) (Operation.Delete n).get_attributes) hrest
    refine ⟨?_, fun z hz => ?_⟩
    · rw [show invertLoop (Operation.Delete n :: rest) s acc =
        invertLoop rest (s.drop n)
          (acc.insert (s.take n) (Operation.Delete n).get_attributes) from rfl]
      rw [ih1, Delta.insert_base_len, opsTargetLen_cons, opTarget]
      omega
    · rw [show invertLoop (Operation.Delete n :: rest) s acc =
        invertLoop rest (s.drop n)
          (acc.insert (s.take n) (Operation.Delete n).get_attributes) from rfl]
      rw [show applyOps (Operation.Delete n :: rest) s = applyOps rest (s.drop n) from rfl]
      rw [ih2 z (by rw [Delta.insert_opsBase]; omega)]
      rw [Delta.insert_ops_sem, applyOps_append, ← hz, List.take_length, List.drop_length]
      rw [show applyOps [Operation.Insert (s.take n) (Operation.Delete n).get_attributes] [] =
        s.take n ++ applyOps [] [] from rfl]
      rw [applyOps, List.append_nil, List.append_assoc, List.take_append_drop]

/-- C3: Invert round-trip: for every string S and delta A with base_len(A)
equal to the character count of S (A well-formed, as every builder-built delta
is), applying invert(A, S) to the string apply(S, A) restores exactly S. -/
theorem C3_invert_round_trip (s : List Char) (A : Delta) (hw : A.Wf)
    (hlen : A.base_len = s.length) :
    ∃ u, A.apply s = Except.ok u ∧ (A.invert s).apply u = Except.ok s := by
  obtain ⟨hb, ht, hp⟩ := hw
  have hops : opsBaseLen A.ops = s.length := by rw [← hb, hlen]
  obtain ⟨m1, m2⟩ := invertLoop_spec A.ops s Delta.default hops
  refine ⟨applyOps A.ops s, ?_, ?_⟩
  · rw [Delta.apply, if_neg (by omega)]
  · show (invertLoop A.ops s Delta.default).apply (applyOps A.ops s) = _
    have hlen2 : (applyOps A.ops s).length = opsTargetLen A.ops := applyOps_length _ _ hops
    have hbase : (invertLoop A.ops s Delta.default).base_len = opsTargetLen A.ops := by
      rw [m1]
      show Delta.default.base_len + _ = _
      simp [Delta.default]
    rw [Delta.apply, if_neg (by omega)]
    have hm := m2 [] (by simp [Delta.default, opsBaseLen_nil])
    rw [List.nil_append] at hm
    rw [hm]
    show Except.ok (applyOps [] [] ++ s) = _
    rw [applyOps, List.nil_append]

/-- Witness for C3 at S = "abc", A = retain 1, insert "X", delete 2. -/
theorem C3_invert_round_trip_witness :
    ∃ u, (((Delta.default.retain 1 Attributes.Empty).insert ['X'] Attributes.Empty).delete
        2).apply ['a','b','c'] = Except.ok u ∧
      ((((Delta.default.retain 1 Attributes.Empty).insert ['X'] Attributes.Empty).delete
        2).invert ['a','b','c']).apply u = Except.ok ['a','b','c'] :=
  C3_invert_round_trip ['a','b','c']
    (((Delta.default.retain 1 Attributes.Empty).insert ['X'] Attributes.Empty).delete 2)
    (by decide) (by decide)

/-! ## Helpers for the compose and transform loop inductions -/

theorem posOps_cons {op : Operation} {l : List Operation} :
    PosOps (op :: l) ↔ 0 < op.length ∧ PosOps l :=
  List.forall_mem_cons

theorem applyOps_retain_cons (n : Nat) (b : Attributes) (lb : List Operation) (X : List Char) :
    applyOps (Operation.Retain n b :: lb) X = X.take n ++ applyOps lb (X.drop n) := rfl

theorem applyOps_delete_cons (k : Nat) (lb : List Operation) (X : List Char) :
    applyOps (Operation.Delete k :: lb) X = applyOps lb (X.drop k) := rfl

theorem applyOps_insert_cons (t : List Char) (b : Attributes) (lb : List Operation)
    (X : List Char) :
    applyOps (Operation.Insert t b :: lb) X = t ++ applyOps lb X := rfl

theorem retain_head_split (m : Nat) (b : Attributes) (lb : List Operation) (u Y : List Char)
    (h : u.length ≤ m) :
    applyOps (Operation.Retain m b :: lb) (u ++ Y) =
      u ++ applyOps (Operation.Retain (m - u.length) b :: lb) Y := by
  rw [applyOps_retain_cons, applyOps_retain_cons]
  rw [List.take_append_eq_append_take, List.drop_append_eq_append_drop,
    List.take_of_length_le h, List.drop_eq_nil_of_le h, List.nil_append, List.append_assoc]

theorem delete_head_split (k : Nat) (lb : List Operation) (u Y : List Char)
    (h : u.length ≤ k) :
    applyOps (Operation.Delete k :: lb) (u ++ Y) =
      applyOps (Operation.Delete (k - u.length) :: lb) Y := by
  rw [applyOps_delete_cons, applyOps_delete_cons]
  rw [List.drop_append_eq_append_drop, List.drop_eq_nil_of_le h, List.nil_append]

theorem retain_zero_cons (b : Attributes) (lb : List Operation) (Y : List Char) :
    applyOps (Operation.Retain 0 b :: lb) Y = applyOps lb Y := by
  rw [applyOps_retain_cons, List.take_zero, List.drop_zero, List.nil_append]

theorem delete_zero_cons (lb : List Operation) (Y : List Char) :
    applyOps (Operation.Delete 0 :: lb) Y = applyOps lb Y := by
  rw [applyOps_delete_cons, List.drop_zero]

theorem acc_delete_apply (acc : Delta) (i : Nat) (z w : List Char)
    (hz : z.length = opsBaseLen acc.ops) :
    applyOps (acc.delete i).ops (z ++ w) = applyOps acc.ops z := by
  rw [Delta.delete_ops_sem, applyOps_append, ← hz, List.take_left, List.drop_left,
    applyOps_delete_cons, applyOps, List.append_nil]

theorem acc_insert_apply (acc : Delta) (t : List Char) (a : Attributes) (z w : List Char)
    (hz : z.length = opsBaseLen acc.ops) :
    applyOps (acc.insert t a).ops (z ++ w) = applyOps acc.ops z ++ t := by
  rw [Delta.insert_ops_sem, applyOps_append, ← hz, List.take_left, List.drop_left]
  rw [applyOps_insert_cons, applyOps, List.append_nil]

theorem acc_retain_apply (acc : Delta) (n : Nat) (a : Attributes) (z w : List Char)
    (hz : z.length = opsBaseLen acc.ops) :
    applyOps (acc.retain n a).ops (z ++ w) = applyOps acc.ops z ++ w.take n := by
  rw [Delta.retain_ops_sem, applyOps_append, ← hz, List.take_left, List.drop_left]
  rw [applyOps_retain_cons, applyOps, List.append_nil]

theorem acc_insert_apply_exact (acc : Delta) (t : List Char) (a : Attributes) (z : List Char)
    (hz : z.length = opsBaseLen acc.ops) :
    applyOps (acc.insert t a).ops z = applyOps acc.ops z ++ t := by
  rw [Delta.insert_ops_sem, applyOps_append, ← hz, List.take_length, List.drop_length]
  rw [applyOps_insert_cons, applyOps, List.append_nil]

/-! ## Compose master lemma -/

theorem composeLoop_spec : ∀ (la lb : List Operation) (acc : Delta),
    PosOps la → PosOps lb → opsTargetLen la = opsBaseLen lb →
    ∃ c, composeLoop la lb acc = Except.ok c ∧
      c.base_len = acc.base_len + opsBaseLen la ∧
      opsBaseLen c.ops = opsBaseLen acc.ops + opsBaseLen la ∧
      ∀ (z s : List Char), z.length = opsBaseLen acc.ops → opsBaseLen la = s.length →
        applyOps c.ops (z ++ s) = applyOps acc.ops z ++ applyOps lb (applyOps la s) := by
  intro la lb acc
  induction la, lb, acc using composeLoop.induct with
  | case1 acc =>
    intro hpa hpb htb
    refine ⟨acc, by simp only [composeLoop], by simp [opsBaseLen_nil], by simp [opsBaseLen_nil],
      fun z s hz hs => ?_⟩
    rw [opsBaseLen_nil] at hs
    have hse : s = [] := List.eq_nil_of_length_eq_zero hs.symm
    subst hse
    rw [List.append_nil]
    show _ = _ ++ applyOps [] (applyOps [] [])
    rw [applyOps, List.append_nil]
  | case2 i la lb acc ih =>
    intro hpa hpb htb
    obtain ⟨hpi, hpa'⟩ := posOps_cons.mp hpa
    rw [opsTargetLen_cons] at htb
    simp only [opTarget] at htb
    have htb' : opsTargetLen la = opsBaseLen lb := by omega
    obtain ⟨c, hc, hcb, hco, hsem⟩ := ih hpa' hpb htb'
    refine ⟨c, by simp only [composeLoop]; exact hc, ?_, ?_, fun z s hz hs => ?_⟩
    · rw [hcb, Delta.delete_base_len, opsBaseLen_cons]
      simp only [opBase]
      omega
    · rw [hco, Delta.delete_opsBase, opsBaseLen_cons]
      simp only [opBase]
      omega
    · rw [opsBaseLen_cons] at hs
      simp only [opBase] at hs
      have h1 := hsem (z ++ s.take i) (s.drop i)
        (by rw [List.length_append, List.length_take, Delta.delete_opsBase]; omega)
        (by rw [List.length_drop]; omega)
      rw [List.append_assoc, List.take_append_drop] at h1
      rw [acc_delete_apply acc i z (s.take i) hz] at h1
      rw [applyOps_delete_cons]
      exact h1
  | case3 la t a2 lb acc hne ih =>
    intro hpa hpb htb
    obtain ⟨hpt, hpb'⟩ := posOps_cons.mp hpb
    rw [opsBaseLen_cons] at htb
    simp only [opBase] at htb
    have htb' : opsTargetLen la = opsBaseLen lb := by omega
    obtain ⟨c, hc, hcb, hco, hsem⟩ := ih hpa hpb' htb'
    have hstep : composeLoop la (Operation.Insert t a2 :: lb) acc =
        composeLoop la lb (acc.insert t a2) := by
      match la, hne with
      | [], _ => simp only [composeLoop]
      | Operation.Insert t1 b1 :: la1, _ => simp only [composeLoop]
      | Operation.Retain n1 b1 :: la1, _ => simp only [composeLoop]
      | Operation.Delete i :: la1, hne => exact (hne i la1 rfl).elim
    refine ⟨c, by rw [hstep]; exact hc, ?_, ?_, fun z s hz hs => ?_⟩
    · rw [hcb, Delta.insert_base_len]
    · rw [hco, Delta.insert_opsBase]
    · have h1 := hsem z s (by rw [Delta.insert_opsBase]; exact hz) hs
      rw [acc_insert_apply_exact acc t a2 z hz] at h1
      rw [applyOps_insert_cons, ← List.append_assoc]
      exact h1
  | case4 x x1 hx hxi =>
    intro hpa hpb htb
    exfalso
    rw [opsTargetLen_nil] at htb
    cases x with
    | nil => exact hx rfl
    | cons op lb1 =>
      cases op with
      | Insert t b => exact hxi t b lb1 rfl
      | Delete i =>
        have h1 := (posOps_cons.mp hpb).1
        simp only [Operation.length] at h1
        rw [opsBaseLen_cons] at htb
        simp only [opBase] at htb
        omega
      | Retain n b =>
        have h1 := (posOps_cons.mp hpb).1
        simp only [Operation.length] at h1
        rw [opsBaseLen_cons] at htb
        simp only [opBase] at htb
        omega
  | case5 x x1 hx hnd hx2 =>
    intro hpa hpb htb
    exfalso
    rw [opsBaseLen_nil] at htb
    cases x with
    | nil => exact hx rfl
    | cons op la1 =>
      cases op with
      | Delete i => exact hnd i la1 rfl
      | Insert t b =>
        have h1 := (posOps_cons.mp hpa).1
        simp only [Operation.length] at h1
        rw [opsTargetLen_cons] at htb
        simp only [opTarget] at htb
        omega
      | Retain n b =>
        have h1 := (posOps_cons.mp hpa).1
        simp only [Operation.length] at h1
        rw [opsTargetLen_cons] at htb
        simp only [opTarget] at htb
        omega
  | case6 n a1 la m a2 lb acc composed h ih =>
    intro hpa hpb htb
    obtain ⟨hpn, hpa'⟩ := posOps_cons.mp hpa
    obtain ⟨hpm, hpb'⟩ := posOps_cons.mp hpb
    simp only [Operation.length] at hpn hpm
    rw [opsTargetLen_cons, opsBaseLen_cons] at htb
    simp only [opTarget, opBase] at htb
    have htb' : opsTargetLen la =
        opsBaseLen (Operation.Retain (m - n) Attributes.Empty :: lb) := by
      rw [opsBaseLen_cons]
      simp only [opBase]
      omega
    have hpb'' : PosOps (Operation.Retain (m - n) Attributes.Empty :: lb) :=
      posOps_cons.mpr ⟨by simp only [Operation.length]; omega, hpb'⟩
    obtain ⟨c, hc, hcb, hco, hsem⟩ := ih hpa' hpb'' htb'
    refine ⟨c, by simp only [composeLoop]; rw [if_pos h]; exact hc, ?_, ?_,
      fun z s hz hs => ?_⟩
    · rw [hcb, Delta.retain_base_len, opsBaseLen_cons]
      simp only [opBase]
      omega
    · rw [hco, Delta.retain_opsBase, opsBaseLen_cons]
      simp only [opBase]
      omega
    · rw [opsBaseLen_cons] at hs
      simp only [opBase] at hs
      have hns : n ≤ s.length := by omega
      have hlt : (s.take n).length = n := by rw [List.length_take]; omega
      have h1 := hsem (z ++ s.take n) (s.drop n)
        (by rw [List.length_append, hlt, Delta.retain_opsBase]; omega)
        (by rw [List.length_drop]; omega)
      rw [List.append_assoc, List.take_append_drop] at h1
      rw [acc_retain_apply acc n composed z (s.take n) hz, List.take_take, Nat.min_self] at h1
      rw [applyOps_retain_cons n a1 la s,
        retain_head_split m a2 lb (s.take n) _ (by omega), hlt]
      rw [applyOps_retain_cons (m - n) a2 lb, applyOps_retain_cons (m - n) Attributes.Empty lb]
        at *
      rw [h1, List.append_assoc]
  | case7 a1 la m a2 lb acc composed e ih =>
    intro hpa hpb htb
    obtain ⟨hpn, hpa'⟩ := posOps_cons.mp hpa
    obtain ⟨hpm, hpb'⟩ := posOps_cons.mp hpb
    simp only [Operation.length] at hpn hpm
    rw [opsTargetLen_cons, opsBaseLen_cons] at htb
    simp only [opTarget, opBase] at htb
    have htb' : opsTargetLen la = opsBaseLen lb := by omega
    obtain ⟨c, hc, hcb, hco, hsem⟩ := ih hpa' hpb' htb'
    refine ⟨c, by simp only [composeLoop]; rw [if_neg e]; simp only [if_true, eq_self_iff_true]; exact hc, ?_, ?_,
      fun z s hz hs => ?_⟩
    · rw [hcb, Delta.retain_base_len, opsBaseLen_cons]
      simp only [opBase]
      omega
    · rw [hco, Delta.retain_opsBase, opsBaseLen_cons]
      simp only [opBase]
      omega
    · rw [opsBaseLen_cons] at hs
      simp only [opBase] at hs
      have hns : m ≤ s.length := by omega
      have hlt : (s.take m).length = m := by rw [List.length_take]; omega
      have h1 := hsem (z ++ s.take m) (s.drop m)
        (by rw [List.length_append, hlt, Delta.retain_opsBase]; omega)
        (by rw [List.length_drop]; omega)
      rw [List.append_assoc, List.take_append_drop] at h1
      rw [acc_retain_apply acc m composed z (s.take m) hz, List.take_take, Nat.min_self] at h1
      rw [applyOps_retain_cons m a1 la s,
        retain_head_split m a2 lb (s.take m) _ (by omega), hlt, Nat.sub_self,
        retain_zero_cons]
      rw [h1, List.append_assoc]
  | case8 n a1 la m a2 lb acc composed e1 e2 ih =>
    intro hpa hpb htb
    obtain ⟨hpn, hpa'⟩ := posOps_cons.mp hpa
    obtain ⟨hpm, hpb'⟩ := posOps_cons.mp hpb
    simp only [Operation.length] at hpn hpm
    rw [opsTargetLen_cons, opsBaseLen_cons] at htb
    simp only [opTarget, opBase] at htb
    have hmn : m < n := by omega
    have htb' : opsTargetLen (Operation.Retain (n - m) Attributes.Empty :: la) =
        opsBaseLen lb := by
      rw [opsTargetLen_cons]
      simp only [opTarget]
      omega
    have hpa'' : PosOps (Operation.Retain (n - m) Attributes.Empty :: la) :=
      posOps_cons.mpr ⟨by simp only [Operation.length]; omega, hpa'⟩
    obtain ⟨c, hc, hcb, hco, hsem⟩ := ih hpa'' hpb' htb'
    refine ⟨c, by simp only [composeLoop]; rw [if_neg e1, if_neg e2]; exact hc, ?_, ?_,
      fun z s hz hs => ?_⟩
    · rw [hcb, Delta.retain_base_len, opsBaseLen_cons, opsBaseLen_cons]
      simp only [opBase]
      omega
    · rw [hco, Delta.retain_opsBase, opsBaseLen_cons, opsBaseLen_cons]
      simp only [opBase]
      omega
    · rw [opsBaseLen_cons] at hs
      simp only [opBase] at hs
      have hns : n ≤ s.length := by omega
      have hlt : (s.take m).length = m := by rw [List.length_take]; omega
      have h1 := hsem (z ++ s.take m) (s.drop m)
        (by rw [List.length_append, hlt, Delta.retain_opsBase]; omega)
        (by rw [List.length_drop, opsBaseLen_cons]; simp only [opBase]; omega)
      rw [List.append_assoc, List.take_append_drop] at h1
      rw [acc_retain_apply acc m composed z (s.take m) hz, List.take_take, Nat.min_self] at h1
      rw [applyOps_retain_cons (n - m) Attributes.Empty la, List.drop_drop,
        Nat.add_sub_cancel' (by omega : m ≤ n)] at h1
      have e3 : min m n = m := Nat.min_eq_left (by omega)
      have e4 : min n s.length = n := Nat.min_eq_left (by omega)
      rw [applyOps_retain_cons n a1 la s, applyOps_retain_cons m a2 lb,
        List.take_append_eq_append_take, List.drop_append_eq_append_drop,
        List.take_take, List.length_take, e3, e4,
        Nat.sub_eq_zero_of_le (Nat.le_of_lt hmn), List.take_zero,
        List.append_nil, List.drop_zero, List.drop_take]
      rw [h1, List.append_assoc]
  | case9 t a1 la k lb acc h ih =>
    intro hpa hpb htb
    obtain ⟨hpt, hpa'⟩ := posOps_cons.mp hpa
    obtain ⟨hpk, hpb'⟩ := posOps_cons.mp hpb
    simp only [Operation.length] at hpt hpk
    rw [opsTargetLen_cons, opsBaseLen_cons] at htb
    simp only [opTarget, opBase] at htb
    have htb' : opsTargetLen la =
        opsBaseLen (Operation.Delete (k - t.length) :: lb) := by
      rw [opsBaseLen_cons]
      simp only [opBase]
      omega
    have hpb'' : PosOps (Operation.Delete (k - t.length) :: lb) :=
      posOps_cons.mpr ⟨by simp only [Operation.length]; omega, hpb'⟩
    obtain ⟨c, hc, hcb, hco, hsem⟩ := ih hpa' hpb'' htb'
    refine ⟨c, by simp only [composeLoop]; rw [if_pos h]; exact hc, ?_, ?_,
      fun z s hz hs => ?_⟩
    · rw [hcb, opsBaseLen_cons]
      simp only [opBase]
      omega
    · rw [hco, opsBaseLen_cons]
      simp only [opBase]
      omega
    · rw [opsBaseLen_cons] at hs
      simp only [opBase] at hs
      have h1 := hsem z s hz (by omega)
      rw [applyOps_insert_cons, delete_head_split k lb t _ (by omega)]
      exact h1
  | case10 t a1 la lb acc e ih =>
    intro hpa hpb htb
    obtain ⟨hpt, hpa'⟩ := posOps_cons.mp hpa
    obtain ⟨hpk, hpb'⟩ := posOps_cons.mp hpb
    simp only [Operation.length] at hpt hpk
    rw [opsTargetLen_cons, opsBaseLen_cons] at htb
    simp only [opTarget, opBase] at htb
    have htb' : opsTargetLen la = opsBaseLen lb := by omega
    obtain ⟨c, hc, hcb, hco, hsem⟩ := ih hpa' hpb' htb'
    refine ⟨c, by simp only [composeLoop]; rw [if_neg e]; simp only [if_true, eq_self_iff_true]; exact hc, ?_, ?_,
      fun z s hz hs => ?_⟩
    · rw [hcb, opsBaseLen_cons]
      simp only [opBase]
      omega
    · rw [hco, opsBaseLen_cons]
      simp only [opBase]
      omega
    · rw [opsBaseLen_cons] at hs
      simp only [opBase] at hs
      have h1 := hsem z s hz (by omega)
      rw [applyOps_insert_cons, delete_head_split t.length lb t _ (by omega),
        Nat.sub_self, delete_zero_cons]
      exact h1
  | case11 t a1 la k lb acc e1 e2 ih =>
    intro hpa hpb htb
    obtain ⟨hpt, hpa'⟩ := posOps_cons.mp hpa
    obtain ⟨hpk, hpb'⟩ := posOps_cons.mp hpb
    simp only [Operation.length] at hpt hpk
    rw [opsTargetLen_cons, opsBaseLen_cons] at htb
    simp only [opTarget, opBase] at htb
    have hkt : k < t.length := by omega
    have htb' : opsTargetLen (Operation.Insert (t.drop k) Attributes.Empty :: la) =
        opsBaseLen lb := by
      rw [opsTargetLen_cons]
      simp only [opTarget, List.length_drop]
      omega
    have hpa'' : PosOps (Operation.Insert (t.drop k) Attributes.Empty :: la) :=
      posOps_cons.mpr ⟨by simp only [Operation.length, List.length_drop]; omega, hpa'⟩
    obtain ⟨c, hc, hcb, hco, hsem⟩ := ih hpa'' hpb' htb'
    refine ⟨c, by simp only [composeLoop]; rw [if_neg e1, if_neg e2]; exact hc, ?_, ?_,
      fun z s hz hs => ?_⟩
    · rw [hcb, opsBaseLen_cons, opsBaseLen_cons]
      simp only [opBase]
    · rw [hco, opsBaseLen_cons, opsBaseLen_cons]
      simp only [opBase]
    · rw [opsBaseLen_cons] at hs
      simp only [opBase] at hs
      have h1 := hsem z s hz
        (by rw [opsBaseLen_cons]; simp only [opBase]; omega)
      rw [applyOps_insert_cons] at h1
      rw [applyOps_insert_cons, applyOps_delete_cons,
        List.drop_append_eq_append_drop, Nat.sub_eq_zero_of_le (by omega : k ≤ t.length),
        List.drop_zero]
      exact h1
  | case12 t a1 la m a2 lb acc composed h ih =>
    intro hpa hpb htb
    obtain ⟨hpt, hpa'⟩ := posOps_cons.mp hpa
    obtain ⟨hpm, hpb'⟩ := posOps_cons.mp hpb
    simp only [Operation.length] at hpt hpm
    rw [opsTargetLen_cons, opsBaseLen_cons] at htb
    simp only [opTarget, opBase] at htb
    have htb' : opsTargetLen la =
        opsBaseLen (Operation.Retain (m - t.length) composed :: lb) := by
      rw [opsBaseLen_cons]
      simp only [opBase]
      omega
    have hpb'' : PosOps (Operation.Retain (m - t.length) composed :: lb) :=
      posOps_cons.mpr ⟨by simp only [Operation.length]; omega, hpb'⟩
    obtain ⟨c, hc, hcb, hco, hsem⟩ := ih hpa' hpb'' htb'
    refine ⟨c, by simp only [composeLoop]; rw [if_pos h]; exact hc, ?_, ?_,
      fun z s hz hs => ?_⟩
    · rw [hcb, Delta.insert_base_len, opsBaseLen_cons]
      simp only [opBase]
      omega
    · rw [hco, Delta.insert_opsBase, opsBaseLen_cons]
      simp only [opBase]
      omega
    · rw [opsBaseLen_cons] at hs
      simp only [opBase] at hs
      have h1 := hsem z s (by rw [Delta.insert_opsBase]; exact hz) (by omega)
      rw [acc_insert_apply_exact acc t composed z hz] at h1
      rw [applyOps_retain_cons (m - t.length) composed lb] at h1
      rw [applyOps_insert_cons, retain_head_split m a2 lb t _ (by omega),
        applyOps_retain_cons (m - t.length) a2 lb]
      rw [h1, List.append_assoc]
  | case13 t a1 la a2 lb acc composed e ih =>
    intro hpa hpb htb
    obtain ⟨hpt, hpa'⟩ := posOps_cons.mp hpa
    obtain ⟨hpm, hpb'⟩ := posOps_cons.mp hpb
    simp only [Operation.length] at hpt hpm
    rw [opsTargetLen_cons, opsBaseLen_cons] at htb
    simp only [opTarget, opBase] at htb
    have htb' : opsTargetLen la = opsBaseLen lb := by omega
    obtain ⟨c, hc, hcb, hco, hsem⟩ := ih hpa' hpb' htb'
    refine ⟨c, by simp only [composeLoop]; rw [if_neg e]; simp only [if_true, eq_self_iff_true]; exact hc, ?_, ?_,
      fun z s hz hs => ?_⟩
    · rw [hcb, Delta.insert_base_len, opsBaseLen_cons]
      simp only [opBase]
      omega
    · rw [hco, Delta.insert_opsBase, opsBaseLen_cons]
      simp only [opBase]
      omega
    · rw [opsBaseLen_cons] at hs
      simp only [opBase] at hs
      have h1 := hsem z s (by rw [Delta.insert_opsBase]; exact hz) (by omega)
      rw [acc_insert_apply_exact acc t composed z hz] at h1
      rw [applyOps_insert_cons, retain_head_split t.length a2 lb t _ (by omega),
        Nat.sub_self, retain_zero_cons]
      rw [h1, List.append_assoc]
  | case14 t a1 la m a2 lb acc composed e1 e2 ih =>
    intro hpa hpb htb
    obtain ⟨hpt, hpa'⟩ := posOps_cons.mp hpa
    obtain ⟨hpm, hpb'⟩ := posOps_cons.mp hpb
    simp only [Operation.length] at hpt hpm
    rw [opsTargetLen_cons, opsBaseLen_cons] at htb
    simp only [opTarget, opBase] at htb
    have hmt : m < t.length := by omega
    have htb' : opsTargetLen (Operation.Insert (t.drop m) Attributes.Empty :: la) =
        opsBaseLen lb := by
      rw [opsTargetLen_cons]
      simp only [opTarget, List.length_drop]
      omega
    have hpa'' : PosOps (Operation.Insert (t.drop m) Attributes.Empty :: la) :=
      posOps_cons.mpr ⟨by simp only [Operation.length, List.length_drop]; omega, hpa'⟩
    obtain ⟨c, hc, hcb, hco, hsem⟩ := ih hpa'' hpb' htb'
    refine ⟨c, by simp only [composeLoop]; rw [if_neg e1, if_neg e2]; exact hc, ?_, ?_,
      fun z s hz hs => ?_⟩
    · rw [hcb, Delta.insert_base_len, opsBaseLen_cons, opsBaseLen_cons]
      simp only [opBase]
    · rw [hco, Delta.insert_opsBase, opsBaseLen_cons, opsBaseLen_cons]
      simp only [opBase]
    · rw [opsBaseLen_cons] at hs
      simp only [opBase] at hs
      have h1 := hsem z s (by rw [Delta.insert_opsBase]; exact hz)
        (by rw [opsBaseLen_cons]; simp only [opBase]; omega)
      rw [acc_insert_apply_exact acc (t.take m) composed z hz] at h1
      rw [applyOps_insert_cons (t.drop m) Attributes.Empty la] at h1
      rw [applyOps_insert_cons, applyOps_retain_cons m a2 lb,
        List.take_append_eq_append_take, List.drop_append_eq_append_drop,
        Nat.sub_eq_zero_of_le (by omega : m ≤ t.length), List.take_zero, List.append_nil,
        List.drop_zero]
      rw [h1, List.append_assoc]
  | case15 n a1 la k lb acc h ih =>
    intro hpa hpb htb
    obtain ⟨hpn, hpa'⟩ := posOps_cons.mp hpa
    obtain ⟨hpk, hpb'⟩ := posOps_cons.mp hpb
    simp only [Operation.length] at hpn hpk
    rw [opsTargetLen_cons, opsBaseLen_cons] at htb
    simp only [opTarget, opBase] at htb
    have htb' : opsTargetLen la = opsBaseLen (Operation.Delete (k - n) :: lb) := by
      rw [opsBaseLen_cons]
      simp only [opBase]
      omega
    have hpb'' : PosOps (Operation.Delete (k - n) :: lb) :=
      posOps_cons.mpr ⟨by simp only [Operation.length]; omega, hpb'⟩
    obtain ⟨c, hc, hcb, hco, hsem⟩ := ih hpa' hpb'' htb'
    refine ⟨c, by simp only [composeLoop]; rw [if_pos h]; exact hc, ?_, ?_,
      fun z s hz hs => ?_⟩
    · rw [hcb, Delta.delete_base_len, opsBaseLen_cons]
      simp only [opBase]
      omega
    · rw [hco, Delta.delete_opsBase, opsBaseLen_cons]
      simp only [opBase]
      omega
    · rw [opsBaseLen_cons] at hs
      simp only [opBase] at hs
      have hns : n ≤ s.length := by omega
      have hlt : (s.take n).length = n := by rw [List.length_take]; omega
      have h1 := hsem (z ++ s.take n) (s.drop n)
        (by rw [List.length_append, hlt, Delta.delete_opsBase]; omega)
        (by rw [List.length_drop]; omega)
      rw [List.append_assoc, List.take_append_drop] at h1
      rw [acc_delete_apply acc n z (s.take n) hz] at h1
      rw [applyOps_retain_cons n a1 la s, delete_head_split k lb (s.take n) _
        (by omega), hlt]
      exact h1
  | case16 a1 la k lb acc e ih =>
    intro hpa hpb htb
    obtain ⟨hpn, hpa'⟩ := posOps_cons.mp hpa
    obtain ⟨hpk, hpb'⟩ := posOps_cons.mp hpb
    simp only [Operation.length] at hpn hpk
    rw [opsTargetLen_cons, opsBaseLen_cons] at htb
    simp only [opTarget, opBase] at htb
    have htb' : opsTargetLen la = opsBaseLen lb := by omega
    obtain ⟨c, hc, hcb, hco, hsem⟩ := ih hpa' hpb' htb'
    refine ⟨c, by simp only [composeLoop]; rw [if_neg e]; simp only [if_true, eq_self_iff_true]; exact hc, ?_, ?_,
      fun z s hz hs => ?_⟩
    · rw [hcb, Delta.delete_base_len, opsBaseLen_cons]
      simp only [opBase]
      omega
    · rw [hco, Delta.delete_opsBase, opsBaseLen_cons]
      simp only [opBase]
      omega
    · rw [opsBaseLen_cons] at hs
      simp only [opBase] at hs
      have hns : k ≤ s.length := by omega
      have hlt : (s.take k).length = k := by rw [List.length_take]; omega
      have h1 := hsem (z ++ s.take k) (s.drop k)
        (by rw [List.length_append, hlt, Delta.delete_opsBase]; omega)
        (by rw [List.length_drop]; omega)
      rw [List.append_assoc, List.take_append_drop] at h1
      rw [acc_delete_apply acc k z (s.take k) hz] at h1
      rw [applyOps_retain_cons k a1 la s, delete_head_split k lb (s.take k) _
        (by omega), hlt, Nat.sub_self, delete_zero_cons]
      exact h1
  | case17 n a1 la k lb acc e1 e2 ih =>
    intro hpa hpb htb
    obtain ⟨hpn, hpa'⟩ := posOps_cons.mp hpa
    obtain ⟨hpk, hpb'⟩ := posOps_cons.mp hpb
    simp only [Operation.length] at hpn hpk
    rw [opsTargetLen_cons, opsBaseLen_cons] at htb
    simp only [opTarget, opBase] at htb
    have hkn : k < n := by omega
    have htb' : opsTargetLen (Operation.Retain (n - k) Attributes.Empty :: la) =
        opsBaseLen lb := by
      rw [opsTargetLen_cons]
      simp only [opTarget]
      omega
    have hpa'' : PosOps (Operation.Retain (n - k) Attributes.Empty :: la) :=
      posOps_cons.mpr ⟨by simp only [Operation.length]; omega, hpa'⟩
    obtain ⟨c, hc, hcb, hco, hsem⟩ := ih hpa'' hpb' htb'
    refine ⟨c, by simp only [composeLoop]; rw [if_neg e1, if_neg e2]; exact hc, ?_, ?_,
      fun z s hz hs => ?_⟩
    · rw [hcb, Delta.delete_base_len, opsBaseLen_cons, opsBaseLen_cons]
      simp only [opBase]
      omega
    · rw [hco, Delta.delete_opsBase, opsBaseLen_cons, opsBaseLen_cons]
      simp only [opBase]
      omega
    · rw [opsBaseLen_cons] at hs
      simp only [opBase] at hs
      have hns : n ≤ s.length := by omega
      have hlt : (s.take k).length = k := by rw [List.length_take]; omega
      have h1 := hsem (z ++ s.take k) (s.drop k)
        (by rw [List.length_append, hlt, Delta.delete_opsBase]; omega)
        (by rw [List.length_drop, opsBaseLen_cons]; simp only [opBase]; omega)
      rw [List.append_assoc, List.take_append_drop] at h1
      rw [acc_delete_apply acc k z (s.take k) hz] at h1
      rw [applyOps_retain_cons (n - k) Attributes.Empty la, List.drop_drop] at h1
      rw [applyOps_retain_cons n a1 la s, applyOps_delete_cons k lb,
        List.drop_append_eq_append_drop, List.drop_take,
        Nat.sub_eq_zero_of_le (by rw [List.length_take]; omega :
          k ≤ (s.take n).length), List.drop_zero]
      rw [Nat.add_sub_cancel' (by omega : k ≤ n)] at h1
      exact h1

/-- C2: Apply-compose law: for all S, A, B with target_len(A) = base_len(B)
and |S| = base_len(A) (A, B well-formed, as builder-built deltas are),
compose(A, B) succeeds and applying A then B to S equals applying
compose(A, B) to S. -/
theorem C2_apply_compose (s : List Char) (A B : Delta) (hwA : A.Wf) (hwB : B.Wf)
    (hc : A.target_len = B.base_len) (hs : s.length = A.base_len) :
    ∃ C u w, A.compose B = Except.ok C ∧ A.apply s = Except.ok u ∧
      B.apply u = Except.ok w ∧ C.apply s = Except.ok w := by
  obtain ⟨hAb, hAt, hAp⟩ := hwA
  obtain ⟨hBb, hBt, hBp⟩ := hwB
  have htb : opsTargetLen A.ops = opsBaseLen B.ops := by rw [← hAt, ← hBb]; exact hc
  obtain ⟨c, hcl, hcb, hco, hsem⟩ := composeLoop_spec A.ops B.ops Delta.default hAp hBp htb
  have hu : (applyOps A.ops s).length = opsTargetLen A.ops :=
    applyOps_length A.ops s (by omega)
  refine ⟨c, applyOps A.ops s, applyOps B.ops (applyOps A.ops s), ?_, ?_, ?_, ?_⟩
  · rw [Delta.compose, if_neg (by omega)]
    exact hcl
  · rw [Delta.apply, if_neg (by omega)]
  · rw [Delta.apply, if_neg (by omega)]
  · have hcb' : c.base_len = opsBaseLen A.ops := by
      rw [hcb]
      show Delta.default.base_len + _ = _
      simp [Delta.default]
    rw [Delta.apply, if_neg (by omega)]
    have h1 := hsem [] s (by simp [Delta.default, opsBaseLen_nil]) (by omega)
    rw [List.nil_append] at h1
    rw [h1]
    show Except.ok (applyOps [] [] ++ _) = _
    rw [applyOps, List.nil_append]

/-- Witness for C2 at S = "xy", A = retain 1, insert "ab", delete 1,
B = retain 2, delete 1. -/
theorem C2_apply_compose_witness :
    ∃ C u w, (((Delta.default.retain 1 Attributes.Empty).insert ['a','b']
          Attributes.Empty).delete 1).compose
        ((Delta.default.retain 2 Attributes.Empty).delete 1) = Except.ok C ∧
      (((Delta.default.retain 1 Attributes.Empty).insert ['a','b']
          Attributes.Empty).delete 1).apply ['x','y'] = Except.ok u ∧
      ((Delta.default.retain 2 Attributes.Empty).delete 1).apply u = Except.ok w ∧
      C.apply ['x','y'] = Except.ok w :=
  C2_apply_compose ['x','y']
    (((Delta.default.retain 1 Attributes.Empty).insert ['a','b'] Attributes.Empty).delete 1)
    ((Delta.default.retain 2 Attributes.Empty).delete 1)
    (by decide) (by decide) (by decide) (by decide)

theorem take_split (s : List Char) (n m : Nat) (h : n ≤ m) :
    s.take m = s.take n ++ (s.drop n).take (m - n) := by
  conv_lhs => rw [show m = n + (m - n) from by omega]
  rw [List.take_add]

theorem drop_split (s : List Char) (n m : Nat) (h : n ≤ m) :
    s.drop m = (s.drop n).drop (m - n) := by
  rw [List.drop_drop]
  congr 1
  omega

theorem applyOps_retain_le (m : Nat) (b : Attributes) (lb : List Operation) (s : List Char)
    (n : Nat) (h : n ≤ m) :
    applyOps (Operation.Retain m b :: lb) s =
      s.take n ++ applyOps (Operation.Retain (m - n) b :: lb) (s.drop n) := by
  rw [applyOps_retain_cons, applyOps_retain_cons, take_split s n m h, drop_split s n m h,
    List.append_assoc]

theorem applyOps_delete_le (j : Nat) (lb : List Operation) (s : List Char) (n : Nat)
    (h : n ≤ j) :
    applyOps (Operation.Delete j :: lb) s =
      applyOps (Operation.Delete (j - n) :: lb) (s.drop n) := by
  rw [applyOps_delete_cons, applyOps_delete_cons, drop_split s n j h]

/-! ## Transform master lemma -/

theorem transformLoop_insert_other_step (la : List Operation) (t : List Char)
    (a2 : Attributes) (lb : List Operation) (aP bP : Delta)
    (hne : ∀ (t1 : List Char) (b1 : Attributes) (la1 : List Operation),
      la ≠ Operation.Insert t1 b1 :: la1) :
    transformLoop la (Operation.Insert t a2 :: lb) aP bP =
      transformLoop la lb
        (aP.retain t.length
          (transform_op_attributes la.head? (some (Operation.Insert t a2)) true))
        (bP.insert t
          (transform_op_attributes la.head? (some (Operation.Insert t a2)) true)) := by
  match la with
  | [] => simp only [transformLoop]
  | Operation.Insert t1 b1 :: la1 => exact absurd rfl (hne t1 b1 la1)
  | Operation.Retain n1 b1 :: la1 => simp only [transformLoop]
  | Operation.Delete i :: la1 => simp only [transformLoop]


theorem transformLoop_spec : ∀ (la lb : List Operation) (aP bP : Delta),
    PosOps la → PosOps lb → opsBaseLen la = opsBaseLen lb →
    ∃ p : Delta × Delta, transformLoop la lb aP bP = Except.ok p ∧
      p.1.base_len = aP.base_len + opsTargetLen lb ∧
      p.2.base_len = bP.base_len + opsTargetLen la ∧
      ∀ (s up vp : List Char), opsBaseLen la = s.length →
        up.length = opsBaseLen bP.ops → vp.length = opsBaseLen aP.ops →
        applyOps aP.ops vp = applyOps bP.ops up →
        applyOps p.1.ops (vp ++ applyOps lb s) = applyOps p.2.ops (up ++ applyOps la s) := by
  intro la lb aP bP
  induction la, lb, aP, bP using transformLoop.induct with
  | case1 aP bP =>
    intro hpa hpb hbb
    refine ⟨(aP, bP), by simp only [transformLoop], by simp [opsTargetLen_nil],
      by simp [opsTargetLen_nil], fun s up vp hs hup hvp hag => ?_⟩
    rw [opsBaseLen_nil] at hs
    have hse : s = [] := List.eq_nil_of_length_eq_zero hs.symm
    subst hse
    show applyOps aP.ops (vp ++ applyOps [] []) = applyOps bP.ops (up ++ applyOps [] [])
    rw [applyOps, List.append_nil, List.append_nil]
    exact hag
  | case2 t a1 la lb aP bP ih =>
    intro hpa hpb hbb
    obtain ⟨hpt, hpa'⟩ := posOps_cons.mp hpa
    simp only [Operation.length] at hpt
    rw [opsBaseLen_cons] at hbb
    simp only [opBase] at hbb
    obtain ⟨p, hp, h1b, h2b, hsem⟩ := ih hpa' hpb (by omega)
    refine ⟨p, by simp only [transformLoop]; exact hp, ?_, ?_,
      fun s up vp hs hup hvp hag => ?_⟩
    · rw [h1b, Delta.insert_base_len]
    · rw [h2b, Delta.retain_base_len, opsTargetLen_cons]
      simp only [opTarget]
      try omega
    · rw [opsBaseLen_cons] at hs
      simp only [opBase] at hs
      have hag' : applyOps (aP.insert t a1).ops vp =
          applyOps (bP.retain t.length a1).ops (up ++ t) := by
        rw [acc_insert_apply_exact aP t a1 vp hvp, acc_retain_apply bP t.length a1 up t hup,
          List.take_length, hag]
      have h2 := hsem s (up ++ t) vp (by omega)
        (by rw [List.length_append, Delta.retain_opsBase]; omega)
        (by rw [Delta.insert_opsBase]; exact hvp) hag'
      rw [applyOps_insert_cons]
      simpa only [List.append_assoc] using h2
  | case3 la t a2 lb aP bP hne composed ih =>
    intro hpa hpb hbb
    obtain ⟨hpt, hpb'⟩ := posOps_cons.mp hpb
    simp only [Operation.length] at hpt
    rw [opsBaseLen_cons] at hbb
    simp only [opBase] at hbb
    obtain ⟨p, hp, h1b, h2b, hsem⟩ := ih hpa hpb' (by omega)
    have hstep : transformLoop la (Operation.Insert t a2 :: lb) aP bP =
        transformLoop la lb (aP.retain t.length composed) (bP.insert t composed) :=
      transformLoop_insert_other_step la t a2 lb aP bP
        (fun t1 b1 la1 hla => hne t1 b1 la1 hla)
    refine ⟨p, by rw [hstep]; exact hp, ?_, ?_, fun s up vp hs hup hvp hag => ?_⟩
    · rw [h1b, Delta.retain_base_len, opsTargetLen_cons]
      simp only [opTarget]
      try omega
    · rw [h2b, Delta.insert_base_len]
    · have hag' : applyOps (aP.retain t.length composed).ops (vp ++ t) =
          applyOps (bP.insert t composed).ops up := by
        rw [acc_insert_apply_exact bP t composed up hup,
          acc_retain_apply aP t.length composed vp t hvp, List.take_length, hag]
      have h2 := hsem s up (vp ++ t) hs
        (by rw [Delta.insert_opsBase]; exact hup)
        (by rw [List.length_append, Delta.retain_opsBase]; omega) hag'
      rw [applyOps_insert_cons]
      simpa only [List.append_assoc] using h2
  | case4 x x1 x2 hx hxi =>
    intro hpa hpb hbb
    exfalso
    rw [opsBaseLen_nil] at hbb
    cases x with
    | nil => exact hx rfl
    | cons op lb1 =>
      cases op with
      | Insert t b => exact hxi t b lb1 rfl
      | Delete i =>
        have h1 := (posOps_cons.mp hpb).1
        simp only [Operation.length] at h1
        rw [opsBaseLen_cons] at hbb
        simp only [opBase] at hbb
        omega
      | Retain n b =>
        have h1 := (posOps_cons.mp hpb).1
        simp only [Operation.length] at h1
        rw [opsBaseLen_cons] at hbb
        simp only [opBase] at hbb
        omega
  | case5 x x1 x2 hx hni hx2 =>
    intro hpa hpb hbb
    exfalso
    rw [opsBaseLen_nil] at hbb
    cases x with
    | nil => exact hx rfl
    | cons op la1 =>
      cases op with
      | Insert t b => exact hni t b la1 rfl
      | Delete i =>
        have h1 := (posOps_cons.mp hpa).1
        simp only [Operation.length] at h1
        rw [opsBaseLen_cons] at hbb
        simp only [opBase] at hbb
        omega
      | Retain n b =>
        have h1 := (posOps_cons.mp hpa).1
        simp only [Operation.length] at h1
        rw [opsBaseLen_cons] at hbb
        simp only [opBase] at hbb
        omega
  | case6 n a1 la m a2 lb aP bP composed h ih =>
    intro hpa hpb hbb
    obtain ⟨hpn, hpa'⟩ := posOps_cons.mp hpa
    obtain ⟨hpm, hpb'⟩ := posOps_cons.mp hpb
    simp only [Operation.length] at hpn hpm
    rw [opsBaseLen_cons, opsBaseLen_cons] at hbb
    simp only [opBase] at hbb
    have hpb'' : PosOps (Operation.Retain (m - n) Attributes.Empty :: lb) :=
      posOps_cons.mpr ⟨by simp only [Operation.length]; omega, hpb'⟩
    obtain ⟨p, hp, h1b, h2b, hsem⟩ := ih hpa' hpb''
      (by rw [opsBaseLen_cons]; simp only [opBase]; omega)
    refine ⟨p, by simp only [transformLoop]; rw [if_pos h]; exact hp, ?_, ?_,
      fun s up vp hs hup hvp hag => ?_⟩
    · rw [h1b, Delta.retain_base_len, opsTargetLen_cons, opsTargetLen_cons]
      simp only [opTarget]
      try omega
    · rw [h2b, Delta.retain_base_len, opsTargetLen_cons]
      simp only [opTarget]
      try omega
    · rw [opsBaseLen_cons] at hs
      simp only [opBase] at hs
      have hns : n ≤ s.length := by omega
      have hlt : (s.take n).length = n := by rw [List.length_take]; omega
      have hag' : applyOps (aP.retain n composed).ops (vp ++ s.take n) =
          applyOps (bP.retain n composed).ops (up ++ s.take n) := by
        rw [acc_retain_apply aP n composed vp _ hvp, acc_retain_apply bP n composed up _ hup,
          hag]
      have h2 := hsem (s.drop n) (up ++ s.take n) (vp ++ s.take n)
        (by rw [List.length_drop]; omega)
        (by rw [List.length_append, hlt, Delta.retain_opsBase]; omega)
        (by rw [List.length_append, hlt, Delta.retain_opsBase]; omega) hag'
      rw [applyOps_retain_cons (m - n) Attributes.Empty lb] at h2
      rw [applyOps_retain_le m a2 lb s n (Nat.le_of_lt h), applyOps_retain_cons n a1 la s,
        applyOps_retain_cons (m - n) a2 lb]
      simpa only [List.append_assoc] using h2
  | case7 a1 la m a2 lb aP bP composed e ih =>
    intro hpa hpb hbb
    obtain ⟨hpn, hpa'⟩ := posOps_cons.mp hpa
    obtain ⟨hpm, hpb'⟩ := posOps_cons.mp hpb
    simp only [Operation.length] at hpn hpm
    rw [opsBaseLen_cons, opsBaseLen_cons] at hbb
    simp only [opBase] at hbb
    obtain ⟨p, hp, h1b, h2b, hsem⟩ := ih hpa' hpb' (by omega)
    refine ⟨p, ?_, ?_, ?_, fun s up vp hs hup hvp hag => ?_⟩
    · simp only [transformLoop]
      rw [if_neg e]
      simp only [if_true, eq_self_iff_true]
      exact hp
    · rw [h1b, Delta.retain_base_len, opsTargetLen_cons]
      simp only [opTarget]
      try omega
    · rw [h2b, Delta.retain_base_len, opsTargetLen_cons]
      simp only [opTarget]
      try omega
    · rw [opsBaseLen_cons] at hs
      simp only [opBase] at hs
      have hns : m ≤ s.length := by omega
      have hlt : (s.take m).length = m := by rw [List.length_take]; omega
      have hag' : applyOps (aP.retain m composed).ops (vp ++ s.take m) =
          applyOps (bP.retain m composed).ops (up ++ s.take m) := by
        rw [acc_retain_apply aP m composed vp _ hvp, acc_retain_apply bP m composed up _ hup,
          hag]
      have h2 := hsem (s.drop m) (up ++ s.take m) (vp ++ s.take m)
        (by rw [List.length_drop]; omega)
        (by rw [List.length_append, hlt, Delta.retain_opsBase]; omega)
        (by rw [List.length_append, hlt, Delta.retain_opsBase]; omega) hag'
      rw [applyOps_retain_cons m a2 lb s, applyOps_retain_cons m a1 la s,
        ← List.append_assoc]
      simpa only [List.append_assoc] using h2
  | case8 n a1 la m a2 lb aP bP composed e1 e2 ih =>
    intro hpa hpb hbb
    obtain ⟨hpn, hpa'⟩ := posOps_cons.mp hpa
    obtain ⟨hpm, hpb'⟩ := posOps_cons.mp hpb
    simp only [Operation.length] at hpn hpm
    rw [opsBaseLen_cons, opsBaseLen_cons] at hbb
    simp only [opBase] at hbb
    have hmn : m < n := by omega
    have hpa'' : PosOps (Operation.Retain (n - m) Attributes.Empty :: la) :=
      posOps_cons.mpr ⟨by simp only [Operation.length]; omega, hpa'⟩
    obtain ⟨p, hp, h1b, h2b, hsem⟩ := ih hpa'' hpb'
      (by rw [opsBaseLen_cons]; simp only [opBase]; omega)
    refine ⟨p, by simp only [transformLoop]; rw [if_neg e1, if_neg e2]; exact hp, ?_, ?_,
      fun s up vp hs hup hvp hag => ?_⟩
    · rw [h1b, Delta.retain_base_len, opsTargetLen_cons]
      simp only [opTarget]
      try omega
    · rw [h2b, Delta.retain_base_len, opsTargetLen_cons, opsTargetLen_cons]
      simp only [opTarget]
      try omega
    · rw [opsBaseLen_cons] at hs
      simp only [opBase] at hs
      have hns : m ≤ s.length := by omega
      have hlt : (s.take m).length = m := by rw [List.length_take]; omega
      have hag' : applyOps (aP.retain m composed).ops (vp ++ s.take m) =
          applyOps (bP.retain m composed).ops (up ++ s.take m) := by
        rw [acc_retain_apply aP m composed vp _ hvp, acc_retain_apply bP m composed up _ hup,
          hag]
      have h2 := hsem (s.drop m) (up ++ s.take m) (vp ++ s.take m)
        (by rw [List.length_drop, opsBaseLen_cons]; simp only [opBase]; omega)
        (by rw [List.length_append, hlt, Delta.retain_opsBase]; omega)
        (by rw [List.length_append, hlt, Delta.retain_opsBase]; omega) hag'
      rw [applyOps_retain_cons (n - m) Attributes.Empty la] at h2
      rw [applyOps_retain_le n a1 la s m (Nat.le_of_lt hmn), applyOps_retain_cons m a2 lb s,
        applyOps_retain_cons (n - m) a1 la]
      simpa only [List.append_assoc] using h2
  | case9 i la j lb aP bP h ih =>
    intro hpa hpb hbb
    obtain ⟨hpi, hpa'⟩ := posOps_cons.mp hpa
    obtain ⟨hpj, hpb'⟩ := posOps_cons.mp hpb
    simp only [Operation.length] at hpi hpj
    rw [opsBaseLen_cons, opsBaseLen_cons] at hbb
    simp only [opBase] at hbb
    have hpb'' : PosOps (Operation.Delete (j - i) :: lb) :=
      posOps_cons.mpr ⟨by simp only [Operation.length]; omega, hpb'⟩
    obtain ⟨p, hp, h1b, h2b, hsem⟩ := ih hpa' hpb''
      (by rw [opsBaseLen_cons]; simp only [opBase]; omega)
    refine ⟨p, by simp only [transformLoop]; rw [if_pos h]; exact hp, ?_, ?_,
      fun s up vp hs hup hvp hag => ?_⟩
    · rw [h1b, opsTargetLen_cons, opsTargetLen_cons]
      simp only [opTarget]
      try omega
    · rw [h2b, opsTargetLen_cons]
      simp only [opTarget]
      try omega
    · rw [opsBaseLen_cons] at hs
      simp only [opBase] at hs
      have h2 := hsem (s.drop i) up vp (by rw [List.length_drop]; omega) hup hvp hag
      rw [applyOps_delete_cons (j - i) lb] at h2
      rw [applyOps_delete_le j lb s i (Nat.le_of_lt h), applyOps_delete_cons i la s,
        applyOps_delete_cons (j - i) lb]
      simpa only [List.append_assoc] using h2
  | case10 la j lb aP bP e ih =>
    intro hpa hpb hbb
    obtain ⟨hpi, hpa'⟩ := posOps_cons.mp hpa
    obtain ⟨hpj, hpb'⟩ := posOps_cons.mp hpb
    simp only [Operation.length] at hpi hpj
    rw [opsBaseLen_cons, opsBaseLen_cons] at hbb
    simp only [opBase] at hbb
    obtain ⟨p, hp, h1b, h2b, hsem⟩ := ih hpa' hpb' (by omega)
    refine ⟨p, ?_, ?_, ?_, fun s up vp hs hup hvp hag => ?_⟩
    · simp only [transformLoop]
      rw [if_neg e]
      simp only [if_true, eq_self_iff_true]
      exact hp
    · rw [h1b, opsTargetLen_cons]
      simp only [opTarget]
      try omega
    · rw [h2b, opsTargetLen_cons]
      simp only [opTarget]
      try omega
    · rw [opsBaseLen_cons] at hs
      simp only [opBase] at hs
      have h2 := hsem (s.drop j) up vp (by rw [List.length_drop]; omega) hup hvp hag
      rw [applyOps_delete_cons j lb s, applyOps_delete_cons j la s]
      simpa only [List.append_assoc] using h2
  | case11 i la j lb aP bP e1 e2 ih =>
    intro hpa hpb hbb
    obtain ⟨hpi, hpa'⟩ := posOps_cons.mp hpa
    obtain ⟨hpj, hpb'⟩ := posOps_cons.mp hpb
    simp only [Operation.length] at hpi hpj
    rw [opsBaseLen_cons, opsBaseLen_cons] at hbb
    simp only [opBase] at hbb
    have hji : j < i := by omega
    have hpa'' : PosOps (Operation.Delete (i - j) :: la) :=
      posOps_cons.mpr ⟨by simp only [Operation.length]; omega, hpa'⟩
    obtain ⟨p, hp, h1b, h2b, hsem⟩ := ih hpa'' hpb'
      (by rw [opsBaseLen_cons]; simp only [opBase]; omega)
    refine ⟨p, by simp only [transformLoop]; rw [if_neg e1, if_neg e2]; exact hp, ?_, ?_,
      fun s up vp hs hup hvp hag => ?_⟩
    · rw [h1b, opsTargetLen_cons]
      simp only [opTarget]
      try omega
    · rw [h2b, opsTargetLen_cons, opsTargetLen_cons]
      simp only [opTarget]
      try omega
    · rw [opsBaseLen_cons] at hs
      simp only [opBase] at hs
      have h2 := hsem (s.drop j) up vp
        (by rw [List.length_drop, opsBaseLen_cons]; simp only [opBase]; omega) hup hvp hag
      rw [applyOps_delete_cons (i - j) la] at h2
      rw [applyOps_delete_le i la s j (Nat.le_of_lt hji), applyOps_delete_cons j lb s,
        applyOps_delete_cons (i - j) la]
      simpa only [List.append_assoc] using h2
  | case12 i la m a2 lb aP bP h ih =>
    intro hpa hpb hbb
    obtain ⟨hpi, hpa'⟩ := posOps_cons.mp hpa
    obtain ⟨hpm, hpb'⟩ := posOps_cons.mp hpb
    simp only [Operation.length] at hpi hpm
    rw [opsBaseLen_cons, opsBaseLen_cons] at hbb
    simp only [opBase] at hbb
    have hpb'' : PosOps (Operation.Retain (m - i) Attributes.Empty :: lb) :=
      posOps_cons.mpr ⟨by simp only [Operation.length]; omega, hpb'⟩
    obtain ⟨p, hp, h1b, h2b, hsem⟩ := ih hpa' hpb''
      (by rw [opsBaseLen_cons]; simp only [opBase]; omega)
    refine ⟨p, by simp only [transformLoop]; rw [if_pos h]; exact hp, ?_, ?_,
      fun s up vp hs hup hvp hag => ?_⟩
    · rw [h1b, Delta.delete_base_len, opsTargetLen_cons, opsTargetLen_cons]
      simp only [opTarget]
      try omega
    · rw [h2b, opsTargetLen_cons]
      simp only [opTarget]
      try omega
    · rw [opsBaseLen_cons] at hs
      simp only [opBase] at hs
      have hns : i ≤ s.length := by omega
      have hlt : (s.take i).length = i := by rw [List.length_take]; omega
      have hag' : applyOps (aP.delete i).ops (vp ++ s.take i) = applyOps bP.ops up := by
        rw [acc_delete_apply aP i vp _ hvp]
        exact hag
      have h2 := hsem (s.drop i) up (vp ++ s.take i)
        (by rw [List.length_drop]; omega) hup
        (by rw [List.length_append, hlt, Delta.delete_opsBase]; omega) hag'
      rw [applyOps_retain_cons (m - i) Attributes.Empty lb] at h2
      rw [applyOps_retain_le m a2 lb s i (Nat.le_of_lt h), applyOps_delete_cons i la s,
        applyOps_retain_cons (m - i) a2 lb]
      simpa only [List.append_assoc] using h2
  | case13 la m a2 lb aP bP e ih =>
    intro hpa hpb hbb
    obtain ⟨hpi, hpa'⟩ := posOps_cons.mp hpa
    obtain ⟨hpm, hpb'⟩ := posOps_cons.mp hpb
    simp only [Operation.length] at hpi hpm
    rw [opsBaseLen_cons, opsBaseLen_cons] at hbb
    simp only [opBase] at hbb
    obtain ⟨p, hp, h1b, h2b, hsem⟩ := ih hpa' hpb' (by omega)
    refine ⟨p, ?_, ?_, ?_, fun s up vp hs hup hvp hag => ?_⟩
    · simp only [transformLoop]
      rw [if_neg e]
      simp only [if_true, eq_self_iff_true]
      exact hp
    · rw [h1b, Delta.delete_base_len, opsTargetLen_cons]
      simp only [opTarget]
      try omega
    · rw [h2b, opsTargetLen_cons]
      simp only [opTarget]
      try omega
    · rw [opsBaseLen_cons] at hs
      simp only [opBase] at hs
      have hns : m ≤ s.length := by omega
      have hlt : (s.take m).length = m := by rw [List.length_take]; omega
      have hag' : applyOps (aP.delete m).ops (vp ++ s.take m) = applyOps bP.ops up := by
        rw [acc_delete_apply aP m vp _ hvp]
        exact hag
      have h2 := hsem (s.drop m) up (vp ++ s.take m)
        (by rw [List.length_drop]; omega) hup
        (by rw [List.length_append, hlt, Delta.delete_opsBase]; omega) hag'
      rw [applyOps_retain_cons m a2 lb s, applyOps_delete_cons m la s]
      simpa only [List.append_assoc] using h2
  | case14 i la m a2 lb aP bP e1 e2 ih =>
    intro hpa hpb hbb
    obtain ⟨hpi, hpa'⟩ := posOps_cons.mp hpa
    obtain ⟨hpm, hpb'⟩ := posOps_cons.mp hpb
    simp only [Operation.length] at hpi hpm
    rw [opsBaseLen_cons, opsBaseLen_cons] at hbb
    simp only [opBase] at hbb
    have hmi : m < i := by omega
    have hpa'' : PosOps (Operation.Delete (i - m) :: la) :=
      posOps_cons.mpr ⟨by simp only [Operation.length]; omega, hpa'⟩
    obtain ⟨p, hp, h1b, h2b, hsem⟩ := ih hpa'' hpb'
      (by rw [opsBaseLen_cons]; simp only [opBase]; omega)
    refine ⟨p, by simp only [transformLoop]; rw [if_neg e1, if_neg e2]; exact hp, ?_, ?_,
      fun s up vp hs hup hvp hag => ?_⟩
    · rw [h1b, Delta.delete_base_len, opsTargetLen_cons]
      simp only [opTarget]
      try omega
    · rw [h2b, opsTargetLen_cons, opsTargetLen_cons]
      simp only [opTarget]
      try omega
    · rw [opsBaseLen_cons] at hs
      simp only [opBase] at hs
      have hns : m ≤ s.length := by omega
      have hlt : (s.take m).length = m := by rw [List.length_take]; omega
      have hag' : applyOps (aP.delete m).ops (vp ++ s.take m) = applyOps bP.ops up := by
        rw [acc_delete_apply aP m vp _ hvp]
        exact hag
      have h2 := hsem (s.drop m) up (vp ++ s.take m)
        (by rw [List.length_drop, opsBaseLen_cons]; simp only [opBase]; omega) hup
        (by rw [List.length_append, hlt, Delta.delete_opsBase]; omega) hag'
      rw [applyOps_delete_cons (i - m) la] at h2
      rw [applyOps_delete_le i la s m (Nat.le_of_lt hmi), applyOps_retain_cons m a2 lb s,
        applyOps_delete_cons (i - m) la]
      simpa only [List.append_assoc] using h2
  | case15 n a1 la j lb aP bP h ih =>
    intro hpa hpb hbb
    obtain ⟨hpn, hpa'⟩ := posOps_cons.mp hpa
    obtain ⟨hpj, hpb'⟩ := posOps_cons.mp hpb
    simp only [Operation.length] at hpn hpj
    rw [opsBaseLen_cons, opsBaseLen_cons] at hbb
    simp only [opBase] at hbb
    have hpb'' : PosOps (Operation.Delete (j - n) :: lb) :=
      posOps_cons.mpr ⟨by simp only [Operation.length]; omega, hpb'⟩
    obtain ⟨p, hp, h1b, h2b, hsem⟩ := ih hpa' hpb''
      (by rw [opsBaseLen_cons]; simp only [opBase]; omega)
    refine ⟨p, by simp only [transformLoop]; rw [if_pos h]; exact hp, ?_, ?_,
      fun s up vp hs hup hvp hag => ?_⟩
    · rw [h1b, opsTargetLen_cons, opsTargetLen_cons]
      simp only [opTarget]
      try omega
    · rw [h2b, Delta.delete_base_len, opsTargetLen_cons]
      simp only [opTarget]
      try omega
    · rw [opsBaseLen_cons] at hs
      simp only [opBase] at hs
      have hns : n ≤ s.length := by omega
      have hlt : (s.take n).length = n := by rw [List.length_take]; omega
      have hag' : applyOps aP.ops vp = applyOps (bP.delete n).ops (up ++ s.take n) := by
        rw [acc_delete_apply bP n up _ hup]
        exact hag
      have h2 := hsem (s.drop n) (up ++ s.take n) vp
        (by rw [List.length_drop]; omega)
        (by rw [List.length_append, hlt, Delta.delete_opsBase]; omega) hvp hag'
      rw [applyOps_delete_cons (j - n) lb] at h2
      rw [applyOps_delete_le j lb s n (Nat.le_of_lt h), applyOps_retain_cons n a1 la s,
        applyOps_delete_cons (j - n) lb]
      simpa only [List.append_assoc] using h2
  | case16 a1 la j lb aP bP e ih =>
    intro hpa hpb hbb
    obtain ⟨hpn, hpa'⟩ := posOps_cons.mp hpa
    obtain ⟨hpj, hpb'⟩ := posOps_cons.mp hpb
    simp only [Operation.length] at hpn hpj
    rw [opsBaseLen_cons, opsBaseLen_cons] at hbb
    simp only [opBase] at hbb
    obtain ⟨p, hp, h1b, h2b, hsem⟩ := ih hpa' hpb' (by omega)
    refine ⟨p, ?_, ?_, ?_, fun s up vp hs hup hvp hag => ?_⟩
    · simp only [transformLoop]
      rw [if_neg e]
      simp only [if_true, eq_self_iff_true]
      exact hp
    · rw [h1b, opsTargetLen_cons]
      simp only [opTarget]
      try omega
    · rw [h2b, Delta.delete_base_len, opsTargetLen_cons]
      simp only [opTarget]
      try omega
    · rw [opsBaseLen_cons] at hs
      simp only [opBase] at hs
      have hns : j ≤ s.length := by omega
      have hlt : (s.take j).length = j := by rw [List.length_take]; omega
      have hag' : applyOps aP.ops vp = applyOps (bP.delete j).ops (up ++ s.take j) := by
        rw [acc_delete_apply bP j up _ hup]
        exact hag
      have h2 := hsem (s.drop j) (up ++ s.take j) vp
        (by rw [List.length_drop]; omega)
        (by rw [List.length_append, hlt, Delta.delete_opsBase]; omega) hvp hag'
      rw [applyOps_delete_cons j lb s, applyOps_retain_cons j a1 la s]
      simpa only [List.append_assoc] using h2
  | case17 n a1 la j lb aP bP e1 e2 ih =>
    intro hpa hpb hbb
    obtain ⟨hpn, hpa'⟩ := posOps_cons.mp hpa
    obtain ⟨hpj, hpb'⟩ := posOps_cons.mp hpb
    simp only [Operation.length] at hpn hpj
    rw [opsBaseLen_cons, opsBaseLen_cons] at hbb
    simp only [opBase] at hbb
    have hjn : j < n := by omega
    have hpa'' : PosOps (Operation.Retain (n - j) Attributes.Empty :: la) :=
      posOps_cons.mpr ⟨by simp only [Operation.length]; omega, hpa'⟩
    obtain ⟨p, hp, h1b, h2b, hsem⟩ := ih hpa'' hpb'
      (by rw [opsBaseLen_cons]; simp only [opBase]; omega)
    refine ⟨p, by simp only [transformLoop]; rw [if_neg e1, if_neg e2]; exact hp, ?_, ?_,
      fun s up vp hs hup hvp hag => ?_⟩
    · rw [h1b, opsTargetLen_cons]
      simp only [opTarget]
      try omega
    · rw [h2b, Delta.delete_base_len, opsTargetLen_cons, opsTargetLen_cons]
      simp only [opTarget]
      try omega
    · rw [opsBaseLen_cons] at hs
      simp only [opBase] at hs
      have hns : j ≤ s.length := by omega
      have hlt : (s.take j).length = j := by rw [List.length_take]; omega
      have hag' : applyOps aP.ops vp = applyOps (bP.delete j).ops (up ++ s.take j) := by
        rw [acc_delete_apply bP j up _ hup]
        exact hag
      have h2 := hsem (s.drop j) (up ++ s.take j) vp
        (by rw [List.length_drop, opsBaseLen_cons]; simp only [opBase]; omega)
        (by rw [List.length_append, hlt, Delta.delete_opsBase]; omega) hvp hag'
      rw [applyOps_retain_cons (n - j) Attributes.Empty la] at h2
      rw [applyOps_delete_cons j lb s, applyOps_retain_le n a1 la s j (Nat.le_of_lt hjn),
        applyOps_retain_cons (n - j) a1 la]
      simpa only [List.append_assoc] using h2

/-- C1: TP1 convergence: for every string S and well-formed deltas A, B whose
base_len both equal the character count of S, transform(A, B) succeeds with
(A', B') and apply(apply(S, A), B') equals apply(apply(S, B), A'). -/
theorem C1_transform_tp1 (s : List Char) (A B : Delta) (hwA : A.Wf) (hwB : B.Wf)
    (hA : A.base_len = s.length) (hB : B.base_len = s.length) :
    ∃ A1 B1 u v w, A.transform B = Except.ok (A1, B1) ∧
      A.apply s = Except.ok u ∧ B.apply s = Except.ok v ∧
      B1.apply u = Except.ok w ∧ A1.apply v = Except.ok w := by
  obtain ⟨hAb, hAt, hAp⟩ := hwA
  obtain ⟨hBb, hBt, hBp⟩ := hwB
  obtain ⟨p, hp, h1b, h2b, hsem⟩ :=
    transformLoop_spec A.ops B.ops Delta.default Delta.default hAp hBp (by omega)
  have hu : (applyOps A.ops s).length = opsTargetLen A.ops :=
    applyOps_length A.ops s (by omega)
  have hv : (applyOps B.ops s).length = opsTargetLen B.ops :=
    applyOps_length B.ops s (by omega)
  have hd0 : Delta.default.base_len = 0 := rfl
  have hd1 : opsBaseLen Delta.default.ops = 0 := rfl
  have heq := hsem s [] [] (by omega) (by rw [hd1]; rfl) (by rw [hd1]; rfl) rfl
  rw [List.nil_append, List.nil_append] at heq
  refine ⟨p.1, p.2, applyOps A.ops s, applyOps B.ops s, applyOps p.2.ops (applyOps A.ops s),
    ?_, ?_, ?_, ?_, ?_⟩
  · rw [Delta.transform, if_neg (by omega), hp]
  · rw [Delta.apply, if_neg (by omega)]
  · rw [Delta.apply, if_neg (by omega)]
  · rw [Delta.apply, if_neg (by rw [hu, h2b, hd0]; omega)]
  · rw [Delta.apply, if_neg (by rw [hv, h1b, hd0]; omega), heq]

/-- Witness for C1 at S = "abc", A = insert "X", retain 3,
B = retain 1, insert "Y", retain 2 (both edits concurrent on "abc"). -/
theorem C1_transform_tp1_witness :
    ∃ A1 B1 u v w, ((Delta.default.insert ['X'] Attributes.Empty).retain 3
        Attributes.Empty).transform
        (((Delta.default.retain 1 Attributes.Empty).insert ['Y'] Attributes.Empty).retain 2
          Attributes.Empty) = Except.ok (A1, B1) ∧
      ((Delta.default.insert ['X'] Attributes.Empty).retain 3 Attributes.Empty).apply
        ['a','b','c'] = Except.ok u ∧
      (((Delta.default.retain 1 Attributes.Empty).insert ['Y'] Attributes.Empty).retain 2
        Attributes.Empty).apply ['a','b','c'] = Except.ok v ∧
      B1.apply u = Except.ok w ∧ A1.apply v = Except.ok w :=
  C1_transform_tp1 ['a','b','c']
    ((Delta.default.insert ['X'] Attributes.Empty).retain 3 Attributes.Empty)
    (((Delta.default.retain 1 Attributes.Empty).insert ['Y'] Attributes.Empty).retain 2
      Attributes.Empty)
    (by decide) (by decide) (by decide) (by decide)

/-! ## Attribute normalization (C5) -/

theorem apply_rule_norm (a : Attributes) : normalizedAttrs a.apply_rule = true := by
  cases a with
  | Follow => rfl
  | Empty => rfl
  | Custom d =>
    show normalizedAttrs d.into_attributes = true
    rw [AttributesData.into_attributes]
    by_cases h : (d.remove_empty).is_empty
    · rw [if_pos h]
      rfl
    · rw [if_neg h]
      have hfil : (d.remove_empty).inner.filter (fun q => !should_remove q.2) =
          (d.remove_empty).inner := by
        apply List.filter_eq_self.mpr
        intro a ha
        simp only [AttributesData.remove_empty] at ha
        exact (List.mem_filter.mp ha).2
      have hlen : (d.remove_empty).inner.length ≠ 0 := by
        intro h0
        apply h
        show ((d.remove_empty).inner.filter (fun q => !should_remove q.2)).length == 0
        rw [hfil, h0]
        rfl
      unfold normalizedAttrs
      rw [Bool.and_eq_true]
      constructor
      · rw [Bool.not_eq_true', List.isEmpty_eq_false]
        intro hnil
        exact hlen (by rw [hnil]; rfl)
      · rw [List.all_eq_true]
        intro q hq
        simp only [AttributesData.remove_empty] at hq
        exact (List.mem_filter.mp hq).2

/-- C5 counterexample: the claim as stated is false: `invert_attributes`
returns an un-normalized value (an empty `Custom`) on a concrete input. -/
theorem C5_counterexample :
    invert_attributes (Attributes.Custom ⟨[("bold","true")]⟩)
        (Attributes.Custom ⟨[("bold","true")]⟩) = Attributes.Custom ⟨[]⟩ ∧
    normalizedAttrs (Attributes.Custom (⟨[]⟩ : AttributesData)) = false := by
  constructor
  · rfl
  · rfl

/-- C5 (amended): every Attributes value returned by compose_attributes is
normalized (its final apply_rule drops REMOVE entries and collapses an empty
Custom to Empty), but transform_attributes and invert_attributes do not
normalize their results: each returns an un-normalized Custom on concrete
inputs (a REMOVE-marked entry, resp. an empty map). -/
theorem C5_attribute_normalization :
    (∀ l r : Option Operation, normalizedAttrs (compose_attributes l r) = true) ∧
    normalizedAttrs (transform_attributes (some Attributes.Empty)
      (some (Attributes.Custom ⟨[("bold","")]⟩)) false) = false ∧
    normalizedAttrs (invert_attributes (Attributes.Custom ⟨[("italic","true")]⟩)
      (Attributes.Custom ⟨[("italic","true")]⟩)) = false := by
  refine ⟨fun l r => ?_, by rfl, by rfl⟩
  match l, r with
  | none, none => rfl
  | some a, r => exact apply_rule_norm _
  | none, some b => exact apply_rule_norm _

/-! ## Builder length invariant (C6) -/

theorem runBuildStep_len (d : Delta) (st : BuildStep)
    (h1 : d.base_len = opsBaseLen d.ops) (h2 : d.target_len = opsTargetLen d.ops) :
    (runBuildStep d st).base_len = opsBaseLen (runBuildStep d st).ops ∧
    (runBuildStep d st).target_len = opsTargetLen (runBuildStep d st).ops := by
  cases st with
  | del n =>
    show (d.delete n).base_len = opsBaseLen (d.delete n).ops ∧
      (d.delete n).target_len = opsTargetLen (d.delete n).ops
    rw [Delta.delete_base_len, Delta.delete_opsBase, Delta.delete_target_len,
      Delta.delete_opsTarget]
    omega
  | ins s attrs =>
    show (d.insert s attrs).base_len = opsBaseLen (d.insert s attrs).ops ∧
      (d.insert s attrs).target_len = opsTargetLen (d.insert s attrs).ops
    rw [Delta.insert_base_len, Delta.insert_opsBase, Delta.insert_target_len,
      Delta.insert_opsTarget]
    omega
  | ret n attrs =>
    show (d.retain n attrs).base_len = opsBaseLen (d.retain n attrs).ops ∧
      (d.retain n attrs).target_len = opsTargetLen (d.retain n attrs).ops
    rw [Delta.retain_base_len, Delta.retain_opsBase, Delta.retain_target_len,
      Delta.retain_opsTarget]
    omega

/-- C6: Delta length-field invariant: for every delta built from the default
delta by any sequence of delete/insert/retain builder calls, base_len is the
sum of the lengths of its Retain and Delete ops and target_len the sum of the
lengths of its Retain and Insert ops (Insert length being the Unicode scalar
value count of its text, i.e. the length of the char list). -/
theorem C6_builder_length_invariant : ∀ steps : List BuildStep,
    (buildDelta steps).base_len = opsBaseLen (buildDelta steps).ops ∧
    (buildDelta steps).target_len = opsTargetLen (buildDelta steps).ops := by
  have main : ∀ (steps : List BuildStep) (d : Delta),
      d.base_len = opsBaseLen d.ops → d.target_len = opsTargetLen d.ops →
      (steps.foldl runBuildStep d).base_len = opsBaseLen (steps.foldl runBuildStep d).ops ∧
      (steps.foldl runBuildStep d).target_len =
        opsTargetLen (steps.foldl runBuildStep d).ops := by
    intro steps
    induction steps with
    | nil => exact fun d h1 h2 => ⟨h1, h2⟩
    | cons st rest ihs =>
      intro d h1 h2
      rw [List.foldl_cons]
      obtain ⟨g1, g2⟩ := runBuildStep_len d st h1 h2
      exact ihs _ g1 g2
  exact fun steps => main steps Delta.default rfl rfl

/-! ## apply error behaviour (C7) -/

/-- C7: apply fails iff its precondition fails: D.apply(S) returns the
LengthMismatch error iff the character count of S differs from D.base_len,
and otherwise returns the string built by walking the ops in order (Retain
emits the next n base characters, Delete discards the next n, Insert emits
its text — the `applyOps` walk). -/
theorem C7_apply_error_iff (d : Delta) (s : List Char) :
    (d.apply s = Except.error OTError.mk ↔ s.length ≠ d.base_len) ∧
    (s.length = d.base_len → d.apply s = Except.ok (applyOps d.ops s)) := by
  refine ⟨⟨fun h => ?_, fun h => ?_⟩, fun h => ?_⟩
  · by_contra hc
    rw [Delta.apply, if_neg (by omega)] at h
    exact absurd h (by simp)
  · rw [Delta.apply, if_pos h]
  · rw [Delta.apply, if_neg (by omega)]

/-- Witness for C7: a wrong-length base errs; base "Hello" with
retain 5, insert " World" yields "Hello World". -/
theorem C7_apply_error_iff_witness :
    ((Delta.default.retain 5 Attributes.Empty).insert
        [' ','W','o','r','l','d'] Attributes.Empty).apply ['a'] =
      Except.error OTError.mk ∧
    ((Delta.default.retain 5 Attributes.Empty).insert
        [' ','W','o','r','l','d'] Attributes.Empty).apply ['H','e','l','l','o'] =
      Except.ok ['H','e','l','l','o',' ','W','o','r','l','d'] :=
  ⟨(C7_apply_error_iff ((Delta.default.retain 5 Attributes.Empty).insert
      [' ','W','o','r','l','d'] Attributes.Empty) ['a']).1.mpr (by decide),
    ((C7_apply_error_iff ((Delta.default.retain 5 Attributes.Empty).insert
      [' ','W','o','r','l','d'] Attributes.Empty) ['H','e','l','l','o']).2
      (by decide)).trans (congrArg Except.ok (by decide))⟩

/-! ## Compose Insert-versus-Delete (C8) -/

/-- C8 counterexample: composing Insert("ab", bold) with (Delete 1, Retain 1)
cancels "a" and carries "b" forward with Empty attributes, not with the
original bold attributes the claim asserts. -/
theorem C8_counterexample :
    (Delta.default.insert ['a','b'] (Attributes.Custom ⟨[("bold","true")]⟩)).compose
        ((Delta.default.delete 1).retain 1 Attributes.Empty) =
      Except.ok ⟨[Operation.Insert ['b'] Attributes.Empty], 0, 1⟩ ∧
    Attributes.Empty ≠ Attributes.Custom ⟨[("bold","true")]⟩ := by
  constructor
  · simp [Delta.compose, composeLoop, compose_attributes, attributes_from,
      Operation.get_attributes, merge_attributes, Attributes.apply_rule,
      AttributesData.into_attributes, AttributesData.remove_empty, AttributesData.is_empty,
      AttributesData.extend, AttributesData.insert, should_remove, REMOVE_FLAG,
      Delta.insert, pushInsert, Delta.default, Delta.retain, pushRetain, Delta.delete,
      pushDelete]
  · decide

/-- C8 (amended): during compose, when self's cursor holds Insert(t, A) and
other's holds Delete(k) with k < |t|, nothing is emitted for the cancelled
prefix (the accumulator is unchanged) and the remaining suffix is carried
forward with Empty attributes — the source rebuilds it via OpBuilder::insert
without re-attaching A. -/
theorem C8_compose_insert_delete_suffix (t : List Char) (a : Attributes)
    (la : List Operation) (k : Nat) (lb : List Operation) (acc : Delta)
    (h : k < t.length) :
    composeLoop (Operation.Insert t a :: la) (Operation.Delete k :: lb) acc =
      composeLoop (Operation.Insert (t.drop k) Attributes.Empty :: la) lb acc := by
  simp only [composeLoop]
  rw [if_neg (by omega), if_neg (by omega)]

/-- Witness for C8 on Insert "ab" bold against Delete 1. -/
theorem C8_compose_insert_delete_suffix_witness :
    composeLoop [Operation.Insert ['a','b'] (Attributes.Custom ⟨[("bold","true")]⟩)]
        [Operation.Delete 1, Operation.Retain 1 Attributes.Empty] Delta.default =
      composeLoop [Operation.Insert ['b'] Attributes.Empty]
        [Operation.Retain 1 Attributes.Empty] Delta.default :=
  C8_compose_insert_delete_suffix ['a','b'] (Attributes.Custom ⟨[("bold","true")]⟩)
    [] 1 [Operation.Retain 1 Attributes.Empty] Delta.default (by decide)

/-! ## ops_in_interval (C9) -/

theorem opsWithStartIn_stop (iv : OTInterval) : ∀ (ops : List Operation) (off : Nat),
    iv.stop ≤ off → opsWithStartIn iv ops off = []
  | [], off, h => rfl
  | op :: rest, off, h => by
    rw [opsWithStartIn, if_neg (by omega), List.nil_append]
    exact opsWithStartIn_stop iv rest (off + op.length) (by omega)

/-- C9 counterexample: for the delta [Insert "ab", Retain 2] and the interval
[1, 3), the Insert starts before 1 and extends past it (range [0, 2) overlaps
[1, 3)), yet ops_in_interval excludes it: the claim's overlap semantics is
false on the code. -/
theorem C9_counterexample :
    ((Delta.default.insert ['a','b'] Attributes.Empty).retain 2
        Attributes.Empty).ops_in_interval ⟨1, 3⟩ = [Operation.Retain 2 Attributes.Empty] ∧
    (Operation.Insert ['a','b'] Attributes.Empty) ∉
      ((Delta.default.insert ['a','b'] Attributes.Empty).retain 2
        Attributes.Empty).ops_in_interval ⟨1, 3⟩ := by
  constructor
  · rfl
  · decide

/-- C9 (amended): ops_in_interval returns exactly the ops (whole, in order)
whose start offset — accumulated op lengths over Insert, Retain and Delete
alike — lies in [start, end); an op that starts before the interval is
skipped even when it extends into it. -/
theorem C9_ops_in_interval_start_offsets (d : Delta) (iv : OTInterval) :
    d.ops_in_interval iv = opsWithStartIn iv d.ops 0 := by
  show opsInIntervalGo iv d.ops 0 = opsWithStartIn iv d.ops 0
  generalize 0 = off
  induction d.ops generalizing off with
  | nil => rfl
  | cons op rest ih =>
    by_cases h1 : off < iv.stop
    · by_cases h2 : off < iv.start
      · rw [opsInIntervalGo, if_pos h1, if_pos h2, opsWithStartIn,
          if_neg (by omega), List.nil_append]
        exact ih _
      · rw [opsInIntervalGo, if_pos h1, if_neg h2, opsWithStartIn,
          if_pos (by omega), List.singleton_append]
        rw [ih _]
    · rw [opsInIntervalGo, if_neg h1, opsWithStartIn, if_neg (by omega), List.nil_append]
      exact (opsWithStartIn_stop iv rest (off + op.length) (by omega)).symm

/-! ## is_noop (C10) -/

/-- C10: is_noop returns true for every delta whose op list is exactly one
Retain, regardless of that Retain's attributes; in particular a Retain
carrying Custom attributes is flagged a no-op even though composing with it
does change formatting, as the concrete conjuncts show. -/
theorem C10_is_noop_single_retain :
    (∀ (d : Delta) (n : Nat) (a : Attributes), d.ops = [Operation.Retain n a] →
      d.is_noop = true) ∧
    ((Delta.default.retain 1 (Attributes.Custom ⟨[("bold","true")]⟩)).is_noop = true ∧
      (Delta.default.insert ['a'] Attributes.Empty).compose
          (Delta.default.retain 1 (Attributes.Custom ⟨[("bold","true")]⟩)) =
        Except.ok ⟨[Operation.Insert ['a'] (Attributes.Custom ⟨[("bold","true")]⟩)], 0, 1⟩ ∧
      (⟨[Operation.Insert ['a'] (Attributes.Custom ⟨[("bold","true")]⟩)], 0, 1⟩ : Delta) ≠
        Delta.default.insert ['a'] Attributes.Empty) := by
  refine ⟨fun d n a h => ?_, by decide, ?_, by decide⟩
  · rw [Delta.is_noop, h]
  · simp [Delta.compose, composeLoop, compose_attributes, attributes_from,
      Operation.get_attributes, merge_attributes, Attributes.apply_rule,
      AttributesData.into_attributes, AttributesData.remove_empty, AttributesData.is_empty,
      AttributesData.extend, AttributesData.insert, should_remove, REMOVE_FLAG,
      Delta.insert, pushInsert, Delta.default, Delta.retain, pushRetain]

/-- Witness for C10 with a Custom-attributed single Retain. -/
theorem C10_is_noop_single_retain_witness :
    (Delta.default.retain 2 (Attributes.Custom ⟨[("italic","true")]⟩)).is_noop = true :=
  C10_is_noop_single_retain.1 _ 2 (Attributes.Custom ⟨[("italic","true")]⟩) (by decide)

/-! ## Builder append lemmas under normal-form side conditions (for C4) -/

theorem pushDelete_push (r : List Operation) (n : Nat)
    (h : ∀ (m : Nat) (rest : List Operation), r ≠ Operation.Delete m :: rest) :
    pushDelete r n = Operation.Delete n :: r := by
  match r with
  | [] => rfl
  | Operation.Delete m :: rest => exact absurd rfl (h m rest)
  | Operation.Insert t a :: rest => rfl
  | Operation.Retain m a :: rest => rfl

theorem pushRetain_push (r : List Operation) (n : Nat) (a : Attributes)
    (h : ∀ (m : Nat) (a0 : Attributes) (rest : List Operation),
      r = Operation.Retain m a0 :: rest → a0 ≠ a) :
    pushRetain r n a = Operation.Retain n a :: r := by
  match r with
  | [] => rfl
  | Operation.Retain m a0 :: rest =>
    simp only [pushRetain]
    rw [if_neg (h m a0 rest rfl)]
  | Operation.Insert t b :: rest => rfl
  | Operation.Delete m :: rest => rfl

theorem pushInsert_push (r : List Operation) (t : List Char) (attrs : Attributes)
    (h1 : ∀ (s0 : List Char) (a0 : Attributes) (rest : List Operation),
      r = Operation.Insert s0 a0 :: rest → a0 ≠ attrs)
    (h2 : ∀ (k : Nat) (rest : List Operation), r ≠ Operation.Delete k :: rest) :
    pushInsert r t attrs = Operation.Insert t attrs :: r := by
  match r with
  | [] => rfl
  | Operation.Insert s0 a0 :: rest =>
    simp only [pushInsert]
    rw [if_neg (h1 s0 a0 rest rfl)]
  | Operation.Delete k :: rest => exact absurd rfl (h2 k rest)
  | Operation.Retain m a0 :: rest => rfl

theorem Delta.delete_push (d : Delta) (n : Nat) (hn : n ≠ 0)
    (h : ∀ (m : Nat) (rest : List Operation), d.ops.reverse ≠ Operation.Delete m :: rest) :
    (d.delete n).ops = d.ops ++ [Operation.Delete n] := by
  simp only [Delta.delete, if_neg hn]
  rw [pushDelete_push d.ops.reverse n h, List.reverse_cons, List.reverse_reverse]

theorem Delta.retain_push (d : Delta) (n : Nat) (a : Attributes) (hn : n ≠ 0)
    (h : ∀ (m : Nat) (a0 : Attributes) (rest : List Operation),
      d.ops.reverse = Operation.Retain m a0 :: rest → a0 ≠ a) :
    (d.retain n a).ops = d.ops ++ [Operation.Retain n a] := by
  simp only [Delta.retain, if_neg hn]
  rw [pushRetain_push d.ops.reverse n a h, List.reverse_cons, List.reverse_reverse]

theorem Delta.insert_push (d : Delta) (t : List Char) (a : Attributes)
    (ht : ¬ t.isEmpty = true)
    (h1 : ∀ (s0 : List Char) (a0 : Attributes) (rest : List Operation),
      d.ops.reverse = Operation.Insert s0 a0 :: rest → a0 ≠ a)
    (h2 : ∀ (k : Nat) (rest : List Operation), d.ops.reverse ≠ Operation.Delete k :: rest) :
    (d.insert t a).ops = d.ops ++ [Operation.Insert t a] := by
  simp only [Delta.insert, if_neg ht]
  rw [pushInsert_push d.ops.reverse t a h1 h2, List.reverse_cons, List.reverse_reverse]

theorem emptyAttrsOps_cons {op : Operation} {l : List Operation}
    (h : emptyAttrsOps (op :: l) = true) :
    op.get_attributes = Attributes.Empty ∧ emptyAttrsOps l = true := by
  unfold emptyAttrsOps at h ⊢
  rw [List.all_cons, Bool.and_eq_true] at h
  exact ⟨by simpa using h.1, h.2⟩

theorem chain_last_ok {P : List Operation} {op : Operation} {rest0 : List Operation}
    (h : List.Chain' (fun x y => okPairB x y = true) (P ++ op :: rest0)) :
    ∀ x : Operation, P.reverse.head? = some x → okPairB x op = true := by
  intro x hx
  have h3 := (List.chain'_append.mp h).2.2
  apply h3 x
  · rw [List.getLast?_eq_head?_reverse]
    exact hx
  · rfl

/-! ## Rebuild lemmas: composing a normal attribute-free delta with a bare
retain reproduces it (for C4) -/

theorem composeLoop_right_retain : ∀ (la : List Operation) (acc : Delta),
    PosOps la → emptyAttrsOps la = true →
    List.Chain' (fun x y => okPairB x y = true) (acc.ops ++ la) →
    composeLoop la
      (if opsTargetLen la = 0 then []
       else [Operation.Retain (opsTargetLen la) Attributes.Empty]) acc =
      Except.ok ⟨acc.ops ++ la, acc.base_len + opsBaseLen la,
        acc.target_len + opsTargetLen la⟩ := by
  intro la
  induction la with
  | nil =>
    intro acc hp he hch
    rw [if_pos opsTargetLen_nil]
    simp only [composeLoop, opsBaseLen_nil, opsTargetLen_nil, List.append_nil, Nat.add_zero]
  | cons op la' ih =>
    intro acc hp he hch
    obtain ⟨hpos, hp'⟩ := posOps_cons.mp hp
    obtain ⟨hea, he'⟩ := emptyAttrsOps_cons he
    cases op with
    | Delete i =>
      simp only [Operation.length] at hpos
      have hA : ∀ (m : Nat) (rest : List Operation),
          acc.ops.reverse ≠ Operation.Delete m :: rest := by
        intro m rest heq
        have hok := chain_last_ok hch (Operation.Delete m) (by rw [heq]; rfl)
        simp [okPairB] at hok
      have hops : (acc.delete i).ops = acc.ops ++ [Operation.Delete i] :=
        Delta.delete_push acc i (by omega) hA
      have hch' : List.Chain' (fun x y => okPairB x y = true) ((acc.delete i).ops ++ la') := by
        rw [hops, List.append_assoc, List.singleton_append]
        exact hch
      have htl : opsTargetLen (Operation.Delete i :: la') = opsTargetLen la' := by
        rw [opsTargetLen_cons]
        simp [opTarget]
      rw [htl]
      simp only [composeLoop]
      rw [ih (acc.delete i) hp' he' hch']
      have e1 : (acc.delete i).ops ++ la' = acc.ops ++ (Operation.Delete i :: la') := by
        rw [hops, List.append_assoc, List.singleton_append]
      have e2 : (acc.delete i).base_len + opsBaseLen la' =
          acc.base_len + opsBaseLen (Operation.Delete i :: la') := by
        rw [Delta.delete_base_len, opsBaseLen_cons]
        simp only [opBase]
        omega
      have e3 : (acc.delete i).target_len = acc.target_len := Delta.delete_target_len acc i
      rw [e1, e2, e3]
    | Insert t a =>
      simp only [Operation.length] at hpos
      simp only [Operation.get_attributes] at hea
      subst hea
      have hne : ¬ t.isEmpty = true := by
        intro hh
        rw [List.isEmpty_iff] at hh
        rw [hh] at hpos
        simp at hpos
      have h1 : ∀ (s0 : List Char) (a0 : Attributes) (rest : List Operation),
          acc.ops.reverse = Operation.Insert s0 a0 :: rest → a0 ≠ Attributes.Empty := by
        intro s0 a0 rest heq
        have hok := chain_last_ok hch (Operation.Insert s0 a0) (by rw [heq]; rfl)
        simpa [okPairB] using hok
      have h2 : ∀ (k : Nat) (rest : List Operation),
          acc.ops.reverse ≠ Operation.Delete k :: rest := by
        intro k rest heq
        have hok := chain_last_ok hch (Operation.Delete k) (by rw [heq]; rfl)
        simp [okPairB] at hok
      have hops : (acc.insert t Attributes.Empty).ops =
          acc.ops ++ [Operation.Insert t Attributes.Empty] :=
        Delta.insert_push acc t Attributes.Empty hne h1 h2
      have hch' : List.Chain' (fun x y => okPairB x y = true)
          ((acc.insert t Attributes.Empty).ops ++ la') := by
        rw [hops, List.append_assoc, List.singleton_append]
        exact hch
      have e1 : (acc.insert t Attributes.Empty).ops ++ la' =
          acc.ops ++ (Operation.Insert t Attributes.Empty :: la') := by
        rw [hops, List.append_assoc, List.singleton_append]
      have e2 : (acc.insert t Attributes.Empty).base_len + opsBaseLen la' =
          acc.base_len + opsBaseLen (Operation.Insert t Attributes.Empty :: la') := by
        rw [Delta.insert_base_len, opsBaseLen_cons]
        simp only [opBase]
        omega
      have e3 : (acc.insert t Attributes.Empty).target_len + opsTargetLen la' =
          acc.target_len + opsTargetLen (Operation.Insert t Attributes.Empty :: la') := by
        rw [Delta.insert_target_len, opsTargetLen_cons]
        simp only [opTarget]
        omega
      have htl : opsTargetLen (Operation.Insert t Attributes.Empty :: la') =
          t.length + opsTargetLen la' := by
        rw [opsTargetLen_cons]
        simp [opTarget]
      by_cases hT : opsTargetLen la' = 0
      · rw [htl, if_neg (by omega)]
        simp only [composeLoop]
        rw [if_neg (by omega), if_pos (by omega)]
        have hcomp : compose_attributes (some (Operation.Insert t Attributes.Empty))
            (some (Operation.Retain (t.length + opsTargetLen la') Attributes.Empty)) =
            Attributes.Empty := rfl
        rw [hcomp]
        have hih := ih (acc.insert t Attributes.Empty) hp' he' hch'
        rw [if_pos hT] at hih
        rw [hih, e1, e2]
        rw [htl] at e3
        rw [e3]
      · rw [htl, if_neg (by omega)]
        simp only [composeLoop]
        rw [if_pos (by omega)]
        have hcomp : compose_attributes (some (Operation.Insert t Attributes.Empty))
            (some (Operation.Retain (t.length + opsTargetLen la') Attributes.Empty)) =
            Attributes.Empty := rfl
        rw [hcomp]
        have hidx : t.length + opsTargetLen la' - t.length = opsTargetLen la' := by omega
        rw [hidx]
        have hih := ih (acc.insert t Attributes.Empty) hp' he' hch'
        rw [if_neg hT] at hih
        rw [hih, e1, e2]
        rw [htl] at e3
        rw [e3]
    | Retain n a =>
      simp only [Operation.length] at hpos
      simp only [Operation.get_attributes] at hea
      subst hea
      have h1 : ∀ (m : Nat) (a0 : Attributes) (rest : List Operation),
          acc.ops.reverse = Operation.Retain m a0 :: rest → a0 ≠ Attributes.Empty := by
        intro m a0 rest heq
        have hok := chain_last_ok hch (Operation.Retain m a0) (by rw [heq]; rfl)
        simpa [okPairB] using hok
      have hops : (acc.retain n Attributes.Empty).ops =
          acc.ops ++ [Operation.Retain n Attributes.Empty] :=
        Delta.retain_push acc n Attributes.Empty (by omega) h1
      have hch' : List.Chain' (fun x y => okPairB x y = true)
          ((acc.retain n Attributes.Empty).ops ++ la') := by
        rw [hops, List.append_assoc, List.singleton_append]
        exact hch
      have e1 : (acc.retain n Attributes.Empty).ops ++ la' =
          acc.ops ++ (Operation.Retain n Attributes.Empty :: la') := by
        rw [hops, List.append_assoc, List.singleton_append]
      have e2 : (acc.retain n Attributes.Empty).base_len + opsBaseLen la' =
          acc.base_len + opsBaseLen (Operation.Retain n Attributes.Empty :: la') := by
        rw [Delta.retain_base_len, opsBaseLen_cons]
        simp only [opBase]
        omega
      have e3 : (acc.retain n Attributes.Empty).target_len + opsTargetLen la' =
          acc.target_len + opsTargetLen (Operation.Retain n Attributes.Empty :: la') := by
        rw [Delta.retain_target_len, opsTargetLen_cons]
        simp only [opTarget]
        omega
      have htl : opsTargetLen (Operation.Retain n Attributes.Empty :: la') =
          n + opsTargetLen la' := by
        rw [opsTargetLen_cons]
        simp [opTarget]
      by_cases hT : opsTargetLen la' = 0
      · rw [htl, if_neg (by omega)]
        simp only [composeLoop]
        rw [if_neg (by omega), if_pos (by omega)]
        have hcomp : compose_attributes (some (Operation.Retain n Attributes.Empty))
            (some (Operation.Retain (n + opsTargetLen la') Attributes.Empty)) =
            Attributes.Empty := rfl
        rw [hcomp]
        have hih := ih (acc.retain n Attributes.Empty) hp' he' hch'
        rw [if_pos hT] at hih
        rw [hih, e1, e2]
        rw [htl] at e3
        rw [e3]
      · rw [htl, if_neg (by omega)]
        simp only [composeLoop]
        rw [if_pos (by omega)]
        have hcomp : compose_attributes (some (Operation.Retain n Attributes.Empty))
            (some (Operation.Retain (n + opsTargetLen la') Attributes.Empty)) =
            Attributes.Empty := rfl
        rw [hcomp]
        have hidx : n + opsTargetLen la' - n = opsTargetLen la' := by omega
        rw [hidx]
        have hih := ih (acc.retain n Attributes.Empty) hp' he' hch'
        rw [if_neg hT] at hih
        rw [hih, e1, e2]
        rw [htl] at e3
        rw [e3]
theorem composeLoop_left_retain : ∀ (lb : List Operation) (acc : Delta),
    PosOps lb → emptyAttrsOps lb = true →
    List.Chain' (fun x y => okPairB x y = true) (acc.ops ++ lb) →
    composeLoop
      (if opsBaseLen lb = 0 then []
       else [Operation.Retain (opsBaseLen lb) Attributes.Empty]) lb acc =
      Except.ok ⟨acc.ops ++ lb, acc.base_len + opsBaseLen lb,
        acc.target_len + opsTargetLen lb⟩ := by
  intro lb
  induction lb with
  | nil =>
    intro acc hp he hch
    rw [if_pos opsBaseLen_nil]
    simp only [composeLoop, opsBaseLen_nil, opsTargetLen_nil, List.append_nil, Nat.add_zero]
  | cons op lb' ih =>
    intro acc hp he hch
    obtain ⟨hpos, hp'⟩ := posOps_cons.mp hp
    obtain ⟨hea, he'⟩ := emptyAttrsOps_cons he
    cases op with
    | Insert t a =>
      simp only [Operation.length] at hpos
      simp only [Operation.get_attributes] at hea
      subst hea
      have hne : ¬ t.isEmpty = true := by
        intro hh
        rw [List.isEmpty_iff] at hh
        rw [hh] at hpos
        simp at hpos
      have h1 : ∀ (s0 : List Char) (a0 : Attributes) (rest : List Operation),
          acc.ops.reverse = Operation.Insert s0 a0 :: rest → a0 ≠ Attributes.Empty := by
        intro s0 a0 rest heq
        have hok := chain_last_ok hch (Operation.Insert s0 a0) (by rw [heq]; rfl)
        simpa [okPairB] using hok
      have h2 : ∀ (k : Nat) (rest : List Operation),
          acc.ops.reverse ≠ Operation.Delete k :: rest := by
        intro k rest heq
        have hok := chain_last_ok hch (Operation.Delete k) (by rw [heq]; rfl)
        simp [okPairB] at hok
      have hops : (acc.insert t Attributes.Empty).ops =
          acc.ops ++ [Operation.Insert t Attributes.Empty] :=
        Delta.insert_push acc t Attributes.Empty hne h1 h2
      have hch' : List.Chain' (fun x y => okPairB x y = true)
          ((acc.insert t Attributes.Empty).ops ++ lb') := by
        rw [hops, List.append_assoc, List.singleton_append]
        exact hch
      have e1 : (acc.insert t Attributes.Empty).ops ++ lb' =
          acc.ops ++ (Operation.Insert t Attributes.Empty :: lb') := by
        rw [hops, List.append_assoc, List.singleton_append]
      have e2 : (acc.insert t Attributes.Empty).base_len = acc.base_len :=
        Delta.insert_base_len acc t Attributes.Empty
      have e3 : (acc.insert t Attributes.Empty).target_len + opsTargetLen lb' =
          acc.target_len + opsTargetLen (Operation.Insert t Attributes.Empty :: lb') := by
        rw [Delta.insert_target_len, opsTargetLen_cons]
        simp only [opTarget]
        omega
      have hbl : opsBaseLen (Operation.Insert t Attributes.Empty :: lb') = opsBaseLen lb' := by
        rw [opsBaseLen_cons]
        simp [opBase]
      rw [hbl]
      by_cases hB : opsBaseLen lb' = 0
      · rw [if_pos hB]
        simp only [composeLoop]
        have hih := ih (acc.insert t Attributes.Empty) hp' he' hch'
        rw [if_pos hB] at hih
        rw [hih, e1, e2, e3]
      · rw [if_neg hB]
        simp only [composeLoop]
        have hih := ih (acc.insert t Attributes.Empty) hp' he' hch'
        rw [if_neg hB] at hih
        rw [hih, e1, e2, e3]
    | Retain m a =>
      simp only [Operation.length] at hpos
      simp only [Operation.get_attributes] at hea
      subst hea
      have h1 : ∀ (m0 : Nat) (a0 : Attributes) (rest : List Operation),
          acc.ops.reverse = Operation.Retain m0 a0 :: rest → a0 ≠ Attributes.Empty := by
        intro m0 a0 rest heq
        have hok := chain_last_ok hch (Operation.Retain m0 a0) (by rw [heq]; rfl)
        simpa [okPairB] using hok
      have hops : (acc.retain m Attributes.Empty).ops =
          acc.ops ++ [Operation.Retain m Attributes.Empty] :=
        Delta.retain_push acc m Attributes.Empty (by omega) h1
      have hch' : List.Chain' (fun x y => okPairB x y = true)
          ((acc.retain m Attributes.Empty).ops ++ lb') := by
        rw [hops, List.append_assoc, List.singleton_append]
        exact hch
      have e1 : (acc.retain m Attributes.Empty).ops ++ lb' =
          acc.ops ++ (Operation.Retain m Attributes.Empty :: lb') := by
        rw [hops, List.append_assoc, List.singleton_append]
      have e3 : (acc.retain m Attributes.Empty).target_len + opsTargetLen lb' =
          acc.target_len + opsTargetLen (Operation.Retain m Attributes.Empty :: lb') := by
        rw [Delta.retain_target_len, opsTargetLen_cons]
        simp only [opTarget]
        omega
      have hbl : opsBaseLen (Operation.Retain m Attributes.Empty :: lb') =
          m + opsBaseLen lb' := by
        rw [opsBaseLen_cons]
        simp [opBase]
      by_cases hB : opsBaseLen lb' = 0
      · rw [hbl, hB, Nat.add_zero, if_neg (by omega)]
        simp only [composeLoop]
        rw [if_neg (by omega)]
        try rw [if_pos rfl]
        try simp only [eq_self_iff_true, if_true]
        have hcomp : compose_attributes (some (Operation.Retain m Attributes.Empty))
            (some (Operation.Retain m Attributes.Empty)) = Attributes.Empty := rfl
        rw [hcomp]
        have hih := ih (acc.retain m Attributes.Empty) hp' he' hch'
        rw [if_pos hB] at hih
        have e2p : (acc.retain m Attributes.Empty).base_len + opsBaseLen lb' =
            acc.base_len + m := by
          rw [Delta.retain_base_len]
          omega
        rw [hih, e1, e2p, e3]
      · rw [hbl, if_neg (by omega)]
        simp only [composeLoop]
        rw [if_neg (by omega), if_neg (by omega)]
        have hcomp : compose_attributes
            (some (Operation.Retain (m + opsBaseLen lb') Attributes.Empty))
            (some (Operation.Retain m Attributes.Empty)) = Attributes.Empty := rfl
        rw [hcomp]
        have hidx : m + opsBaseLen lb' - m = opsBaseLen lb' := by omega
        rw [hidx]
        have hih := ih (acc.retain m Attributes.Empty) hp' he' hch'
        rw [if_neg hB] at hih
        have e2n : (acc.retain m Attributes.Empty).base_len + opsBaseLen lb' =
            acc.base_len + (m + opsBaseLen lb') := by
          rw [Delta.retain_base_len]
          omega
        rw [hih, e1, e2n, e3]
    | Delete k =>
      simp only [Operation.length] at hpos
      have hA : ∀ (m0 : Nat) (rest : List Operation),
          acc.ops.reverse ≠ Operation.Delete m0 :: rest := by
        intro m0 rest heq
        have hok := chain_last_ok hch (Operation.Delete m0) (by rw [heq]; rfl)
        simp [okPairB] at hok
      have hops : (acc.delete k).ops = acc.ops ++ [Operation.Delete k] :=
        Delta.delete_push acc k (by omega) hA
      have hch' : List.Chain' (fun x y => okPairB x y = true)
          ((acc.delete k).ops ++ lb') := by
        rw [hops, List.append_assoc, List.singleton_append]
        exact hch
      have e1 : (acc.delete k).ops ++ lb' = acc.ops ++ (Operation.Delete k :: lb') := by
        rw [hops, List.append_assoc, List.singleton_append]
      have e3 : (acc.delete k).target_len + opsTargetLen lb' =
          acc.target_len + opsTargetLen (Operation.Delete k :: lb') := by
        rw [Delta.delete_target_len, opsTargetLen_cons]
        simp only [opTarget]
        omega
      have hbl : opsBaseLen (Operation.Delete k :: lb') = k + opsBaseLen lb' := by
        rw [opsBaseLen_cons]
        simp [opBase]
      by_cases hB : opsBaseLen lb' = 0
      · rw [hbl, hB, Nat.add_zero, if_neg (by omega)]
        simp only [composeLoop]
        rw [if_neg (by omega)]
        try rw [if_pos rfl]
        try simp only [eq_self_iff_true, if_true]
        have hih := ih (acc.delete k) hp' he' hch'
        rw [if_pos hB] at hih
        have e2p : (acc.delete k).base_len + opsBaseLen lb' = acc.base_len + k := by
          rw [Delta.delete_base_len]
          omega
        rw [hih, e1, e2p, e3]
      · rw [hbl, if_neg (by omega)]
        simp only [composeLoop]
        rw [if_neg (by omega), if_neg (by omega)]
        have hidx : k + opsBaseLen lb' - k = opsBaseLen lb' := by omega
        rw [hidx]
        have hih := ih (acc.delete k) hp' he' hch'
        rw [if_neg hB] at hih
        have e2n : (acc.delete k).base_len + opsBaseLen lb' =
            acc.base_len + (k + opsBaseLen lb') := by
          rw [Delta.delete_base_len]
          omega
        rw [hih, e1, e2n, e3]

/-! ## C4: compose identity -/

/-- C4 counterexample: for the delta A that inserts "a" with a bold attribute,
composing A with a single attribute-free Retain of length `target_len A` (= 1)
does not return A: `compose_attributes` collapses the Custom-vs-Empty pair via
`merge_attributes` into the right operand's `Empty`, so the attribute is lost. -/
theorem C4_counterexample :
    (Delta.default.insert ['a'] (Attributes.Custom ⟨[("bold","true")]⟩)).compose
        (Delta.default.retain 1 Attributes.Empty) =
      Except.ok ⟨[Operation.Insert ['a'] Attributes.Empty], 0, 1⟩ ∧
    (Delta.default.insert ['a'] (Attributes.Custom ⟨[("bold","true")]⟩)).target_len = 1 ∧
    (⟨[Operation.Insert ['a'] Attributes.Empty], 0, 1⟩ : Delta) ≠
      Delta.default.insert ['a'] (Attributes.Custom ⟨[("bold","true")]⟩) := by
  refine ⟨?_, by decide, by decide⟩
  · simp [Delta.compose, composeLoop, compose_attributes, attributes_from,
      Operation.get_attributes, merge_attributes, Attributes.apply_rule,
      AttributesData.into_attributes, AttributesData.remove_empty, AttributesData.is_empty,
      AttributesData.extend, AttributesData.insert, should_remove, REMOVE_FLAG,
      Delta.insert, pushInsert, Delta.default, Delta.retain, pushRetain]

/-- C4 (amended): the compose identities hold for every well-formed delta in
builder normal form whose operations all carry `Empty` attributes: composing A
with a single attribute-free Retain of length `target_len A` on the right, or of
length `base_len A` on the left, returns A exactly. -/
theorem C4_compose_identity (d : Delta) (hwf : d.Wf)
    (hch : List.Chain' (fun x y => okPairB x y = true) d.ops)
    (he : emptyAttrsOps d.ops = true) :
    d.compose (Delta.default.retain d.target_len Attributes.Empty) = Except.ok d ∧
    (Delta.default.retain d.base_len Attributes.Empty).compose d = Except.ok d := by
  obtain ⟨ops, bl, tl⟩ := d
  have hb : bl = opsBaseLen ops := hwf.1
  have ht : tl = opsTargetLen ops := hwf.2.1
  have hpos : PosOps ops := hwf.2.2
  have hch' : List.Chain' (fun x y => okPairB x y = true) ops := hch
  have he' : emptyAttrsOps ops = true := he
  subst hb
  subst ht
  constructor
  · have hops0 : (Delta.default.retain (opsTargetLen ops) Attributes.Empty).ops =
        if opsTargetLen ops = 0 then []
        else [Operation.Retain (opsTargetLen ops) Attributes.Empty] := by
      by_cases h : opsTargetLen ops = 0 <;>
        simp [Delta.retain, h, Delta.default, pushRetain]
    have hbase0 : (Delta.default.retain (opsTargetLen ops) Attributes.Empty).base_len =
        opsTargetLen ops := by
      rw [Delta.retain_base_len]
      simp [Delta.default]
    have hmain := composeLoop_right_retain ops Delta.default hpos he'
      (by simpa [Delta.default] using hch')
    show (if opsTargetLen ops ≠
            (Delta.default.retain (opsTargetLen ops) Attributes.Empty).base_len
          then Except.error OTError.mk
          else composeLoop ops
            (Delta.default.retain (opsTargetLen ops) Attributes.Empty).ops Delta.default) =
        Except.ok ⟨ops, opsBaseLen ops, opsTargetLen ops⟩
    rw [hbase0, if_neg (by omega), hops0, hmain]
    simp [Delta.default]
  · have hops0 : (Delta.default.retain (opsBaseLen ops) Attributes.Empty).ops =
        if opsBaseLen ops = 0 then []
        else [Operation.Retain (opsBaseLen ops) Attributes.Empty] := by
      by_cases h : opsBaseLen ops = 0 <;>
        simp [Delta.retain, h, Delta.default, pushRetain]
    have htgt0 : (Delta.default.retain (opsBaseLen ops) Attributes.Empty).target_len =
        opsBaseLen ops := by
      rw [Delta.retain_target_len]
      simp [Delta.default]
    have hmain := composeLoop_left_retain ops Delta.default hpos he'
      (by simpa [Delta.default] using hch')
    show (if (Delta.default.retain (opsBaseLen ops) Attributes.Empty).target_len ≠
            opsBaseLen ops
          then Except.error OTError.mk
          else composeLoop
            (Delta.default.retain (opsBaseLen ops) Attributes.Empty).ops ops Delta.default) =
        Except.ok ⟨ops, opsBaseLen ops, opsTargetLen ops⟩
    rw [htgt0, if_neg (by omega), hops0, hmain]
    simp [Delta.default]

/-- Witness for C4 at a concrete attribute-free delta. -/
theorem C4_compose_identity_witness :
    ((⟨[Operation.Insert ['a','b'] Attributes.Empty, Operation.Delete 1], 1, 2⟩ : Delta).compose
        (Delta.default.retain 2 Attributes.Empty) =
      Except.ok ⟨[Operation.Insert ['a','b'] Attributes.Empty, Operation.Delete 1], 1, 2⟩) ∧
    ((Delta.default.retain 1 Attributes.Empty).compose
        (⟨[Operation.Insert ['a','b'] Attributes.Empty, Operation.Delete 1], 1, 2⟩ : Delta) =
      Except.ok ⟨[Operation.Insert ['a','b'] Attributes.Empty, Operation.Delete 1], 1, 2⟩) :=
  C4_compose_identity ⟨[Operation.Insert ['a','b'] Attributes.Empty, Operation.Delete 1], 1, 2⟩
    (by decide) (List.chain'_cons.mpr ⟨rfl, List.chain'_singleton _⟩) (by decide)
